import Mathlib

/-!
# Binary-to-text encoders of cs374-base64

Shallow embedding of `src/src/base64.c` (the streaming base64 encoder) and of
the `base2encode`, `base16encode` and `base8encode` routines of
`src/example_code/encode.c`, followed by the theorems that settle the
specification's claims about them.

Conventions of the embedding:

* a byte stream is a `List Nat`; an element is a byte when it is `< 256`
  (predicate `Bytes`);
* the routines of encode.c read their bytes through a `char const *`: the value
  read is `charValue charSigned b`, for either signedness of plain `char`, and
  the conversions to unsigned types are explicit (`toUnsigned`);
* machine integers are `Nat`, with an explicit `% 2 ^ w` wherever the C code
  stores into a `w`-bit unsigned object;
* what the program writes to `stdout` is a `List Char`;
* `assert` failure aborts the run: the base64 loop returns `none` then;
* `Base64.mainLoop` is the loop of base64.c on the bytes of an input that is
  read without error and written without failure; `Base64.ioLoop` and
  `Base64.main` are the same code with the results of `fread`, the failures of
  `stdout` and the argument vector made explicit (`Base64.ioLoop_readsOf`
  relates the two);
* an array read outside `base8a` has no defined result: `base8encode` returns
  `none` then.
-/

/-- The C constant `CHAR_BIT`; both sources refuse to compile unless it is 8. -/
def CHAR_BIT : Nat := 8

/-- A list of numbers is a byte sequence when every element is below 256. -/
def Bytes (x : List Nat) : Prop := ∀ b ∈ x, b < 256

instance (x : List Nat) : Decidable (Bytes x) := by
  unfold Bytes; infer_instance

/-- The characters of an output other than the newlines (the emitted symbols). -/
def symbolsOf (out : List Char) : List Char := out.filter (fun c => c != '\n')

/-- Cut a bit sequence into whole bytes, most significant bit first; the
incomplete trailing bits are discarded. -/
def cutBytes : List Nat → List Nat
  | b7 :: b6 :: b5 :: b4 :: b3 :: b2 :: b1 :: b0 :: rest =>
    (128 * b7 + 64 * b6 + 32 * b5 + 16 * b4 + 8 * b3 + 4 * b2 + 2 * b1 + b0) :: cutBytes rest
  | _ => []

/-- The rounded-up quotient `ceil(a / b)` of the specification. -/
def ceilDiv (a b : Nat) : Nat := (a + b - 1) / b

/-- The value of the C expression `data[i]` of type `char` when the object
holds the byte `b`: plain `char` may be signed (two's complement) or unsigned,
which is implementation-defined, hence the parameter. -/
def charValue (charSigned : Bool) (b : Nat) : Int :=
  if charSigned = true ∧ 128 ≤ b then (b : Int) - 256 else (b : Int)

/-- Conversion of an integer value to an unsigned type of `w` bits. -/
def toUnsigned (w : Nat) (v : Int) : Nat := (v % 2 ^ w).toNat

/-- Conversion of an unsigned value to a signed type of `w` bits, by two's
complement wrap-around (the usual implementation-defined result when the
value is out of range). -/
def toSigned (w : Nat) (v : Nat) : Int :=
  if v % 2 ^ w < 2 ^ (w - 1) then ((v % 2 ^ w : Nat) : Int)
  else ((v % 2 ^ w : Nat) : Int) - 2 ^ w

/-- The generic extraction of the specification (step 5) for groups of `k`
bits out of a packed integer of `width` bits: take the top `k` bits, shift
left by `k` within `width` bits, repeat `n` times. -/
def specExtractK (k width : Nat) : Nat → Nat → List Nat
  | 0, _ => []
  | n + 1, p => p / 2 ^ (width - k) :: specExtractK k width n ((p * 2 ^ k) % 2 ^ width)

namespace Base64

/-- The table `b64a` of base64.c, lines 16-19 (without the terminating NUL). -/
def b64a : List Char :=
  "ABCDEFGHIJKLMNOPQRSTUVWXYZabcdefghijklmnopqrstuvwxyz0123456789+/".toList

/-- Array read `b64a[i]`; index 64 is the terminating NUL of the C string. -/
def b64aAt (i : Nat) : Char := b64a.getD i (Char.ofNat 0)

/-- Lines 45-50 of base64.c: the three buffer bytes are or-ed and shifted into
`bits`, a `long long unsigned int` (64 bits). -/
def packBits (buf0 buf1 buf2 : Nat) : Nat :=
  let bits := 0
  let bits := bits ||| buf0
  let bits := (bits <<< CHAR_BIT) % 2 ^ 64
  let bits := bits ||| buf1
  let bits := (bits <<< CHAR_BIT) % 2 ^ 64
  let bits := bits ||| buf2
  bits

/-- Lines 52-59 of base64.c: the four indices `b64i[0..3]`, extracted from the
low end by masking with `0x3f` and shifting right by 6; each is stored in an
`unsigned char`. -/
def b64i (bits : Nat) : List Nat :=
  let i3 := (bits &&& 0x3f) % 256
  let bits := bits >>> 6
  let i2 := (bits &&& 0x3f) % 256
  let bits := bits >>> 6
  let i1 := (bits &&& 0x3f) % 256
  let bits := bits >>> 6
  let i0 := bits % 256
  [i0, i1, i2, i3]

/-- Lines 61-68 of base64.c: the four output characters `b64o[0..3]`, the last
one or two overwritten by the pad character when fewer than 3 bytes were read. -/
def b64o (idx : List Nat) (nr : Nat) : List Char :=
  let o0 := b64aAt (idx.getD 0 0)
  let o1 := b64aAt (idx.getD 1 0)
  let o2 := b64aAt (idx.getD 2 0)
  let o3 := b64aAt (idx.getD 3 0)
  let o3 := if nr < 3 then '=' else o3
  let o2 := if nr < 2 then '=' else o2
  [o0, o1, o2, o3]

/-- Lines 45-70 of base64.c: the four characters written for one chunk, from
the buffer contents and the number `nr` of bytes read into it. -/
def encodeChunk (buf0 buf1 buf2 nr : Nat) : List Char :=
  b64o (b64i (packBits buf0 buf1 buf2)) nr

/-- Lines 72-78 of base64.c: `line_char += 4`, then at `line_char >= 76` the
assertion `line_char == 76` is checked (`none` when it fails), the counter is
reset and a newline is written. Returns what is written and the new counter. -/
def lineWrap (line_char : Nat) : Option (List Char × Nat) :=
  let line_char := line_char + 4
  if line_char ≥ 76 then
    if line_char = 76 then some (['\n'], 0) else none
  else some ([], line_char)

/-- Line 83 of base64.c: after the loop, a newline unless the column is 0. -/
def finish (line_char : Nat) : List Char :=
  if line_char ≠ 0 then ['\n'] else []

/-- Lines 36-83 of base64.c: the read/encode/write loop on the remaining input
and the column counter `line_char`. `buf` is zeroed at each iteration and
`fread` stores `nr = min 3 (remaining length)` bytes in it; `nr == 0` and
`nr < 3` leave the loop. The result is everything written from here on, or
`none` when the assertion fails. -/
def mainLoop : List Nat → Nat → Option (List Char)
  | [], line_char => some (finish line_char)
  | [b0], line_char =>
    match lineWrap line_char with
    | none => none
    | some (nl, lc) => some (encodeChunk b0 0 0 1 ++ nl ++ finish lc)
  | [b0, b1], line_char =>
    match lineWrap line_char with
    | none => none
    | some (nl, lc) => some (encodeChunk b0 b1 0 2 ++ nl ++ finish lc)
  | b0 :: b1 :: b2 :: rest, line_char =>
    match lineWrap line_char with
    | none => none
    | some (nl, lc) =>
      match mainLoop rest lc with
      | none => none
      | some out => some (encodeChunk b0 b1 b2 3 ++ nl ++ out)

/-- The base64 encoder of base64.c as a function of the bytes of its input:
the loop entered with `line_char = 0` (line 35). -/
def encode (input : List Nat) : Option (List Char) := mainLoop input 0

/-- The extraction of the specification (step 5): take the top 6 bits of the
24-bit packed integer, shift it left by 6 within 24 bits, repeat. -/
def specExtract : Nat → Nat → List Nat
  | 0, _ => []
  | n + 1, p => p / 2 ^ 18 :: specExtract n ((p * 2 ^ 6) % 2 ^ 24)

/-- The symbols written for an input, chunk after chunk, without the line
structure: what `fwrite` at line 70 writes over the whole run. -/
def symbolStream : List Nat → List Char
  | [] => []
  | [b0] => encodeChunk b0 0 0 1
  | [b0, b1] => encodeChunk b0 b1 0 2
  | b0 :: b1 :: b2 :: rest => encodeChunk b0 b1 b2 3 ++ symbolStream rest

/-- The alphabet indices of the non-pad symbols of an input, chunk after
chunk: all four of a full chunk, the first `nr + 1` of a short one. -/
def indexStream : List Nat → List Nat
  | [] => []
  | [b0] => (b64i (packBits b0 0 0)).take 2
  | [b0, b1] => (b64i (packBits b0 b1 0)).take 3
  | b0 :: b1 :: b2 :: rest => b64i (packBits b0 b1 b2) ++ indexStream rest

/-- Number of pad characters the specification gives for an input of `n`
bytes: 0, 2, 1 for `n % 3 = 0, 1, 2`. -/
def padCount (n : Nat) : Nat :=
  if n % 3 = 1 then 2 else if n % 3 = 2 then 1 else 0

/-- Steps 8 and 9 of the specification, symbol by symbol, for width 76: after
each symbol the column is incremented, a newline is emitted and the column
reset when it reaches 76; at the end a newline is emitted unless the column
is 0. -/
def wrapSymbols : Nat → List Char → List Char
  | col, [] => if col ≠ 0 then ['\n'] else []
  | col, s :: rest =>
    if col + 1 = 76 then s :: '\n' :: wrapSymbols 0 rest
    else s :: wrapSymbols (col + 1) rest

/-- The six bits of an alphabet index, most significant first. -/
def bits6 (i : Nat) : List Nat :=
  [i / 32 % 2, i / 16 % 2, i / 8 % 2, i / 4 % 2, i / 2 % 2, i % 2]

/-- The inverse mapping of the encoder: drop the newlines, drop the trailing
pad characters, map each symbol to its index in `b64a`, concatenate the 6-bit
groups most significant first and cut into whole bytes. -/
def decode (out : List Char) : List Nat :=
  let syms := symbolsOf out
  let syms := syms.rdropWhile (fun c => c == '=')
  let idx := syms.map (fun c => b64a.indexOf c)
  cutBytes (idx.flatMap bits6)

end Base64

namespace Encode

/-- The alphabet `base2a` of `base2encode` (encode.c, line 22). -/
def base2a : List Char := "01".toList

/-- Lines 26-35 of encode.c: the inner loop of `base2encode`, `n` iterations
left; each extracts the top bit of `byte` with the mask `1u << (CHAR_BIT - 1)`
stored in an `unsigned char`, prints its digit and shifts `byte` (an
`unsigned char`) left by one. -/
def base2bits : Nat → Nat → List Char
  | 0, _ => []
  | n + 1, byte =>
    let mask := (1 <<< (CHAR_BIT - 1)) % 256
    let idx := (byte &&& mask) >>> (CHAR_BIT - 1)
    let c := base2a.getD idx (Char.ofNat 0)
    c :: base2bits n ((byte <<< 1) % 256)

/-- Lines 24-36 of encode.c: the outer loop of `base2encode` over `data`;
`unsigned char byte = data[i]` converts the `char` to `unsigned char`. -/
def base2loop (charSigned : Bool) : List Nat → List Char
  | [] => []
  | d :: rest =>
    let byte := toUnsigned 8 (charValue charSigned d)
    base2bits CHAR_BIT byte ++ base2loop charSigned rest

/-- The function `base2encode` of encode.c: what it writes for the bytes
`data`, the final newline of line 37 included. -/
def base2encode (charSigned : Bool) (data : List Nat) : List Char :=
  base2loop charSigned data ++ ['\n']

/-- The macro `NIBBLE_BIT` of encode.c, line 44. -/
def NIBBLE_BIT : Nat := CHAR_BIT / 2

/-- The alphabet `base16a` of `base16encode` (encode.c, line 48). -/
def base16a : List Char := "0123456789abcdef".toList

/-- Lines 51-61 of encode.c: the two characters printed for one element of
`data`: `base16a[byte >> NIBBLE_BIT]` and `base16a[byte & NIBBLE_BIT]`. -/
def base16byte (charSigned : Bool) (d : Nat) : List Char :=
  let byte := toUnsigned 8 (charValue charSigned d)
  let idx := byte >>> NIBBLE_BIT
  let c := base16a.getD idx (Char.ofNat 0)
  let idx2 := byte &&& NIBBLE_BIT
  let c2 := base16a.getD idx2 (Char.ofNat 0)
  [c, c2]

/-- Lines 50-62 of encode.c: the loop of `base16encode` over `data`. -/
def base16loop (charSigned : Bool) : List Nat → List Char
  | [] => []
  | d :: rest => base16byte charSigned d ++ base16loop charSigned rest

/-- The function `base16encode` of encode.c: what it writes for the bytes
`data`, the final newline of line 63 included. -/
def base16encode (charSigned : Bool) (data : List Nat) : List Char :=
  base16loop charSigned data ++ ['\n']

/-- The eight binary digits of a byte, most significant first. -/
def bits8 (b : Nat) : List Nat :=
  [b / 128 % 2, b / 64 % 2, b / 32 % 2, b / 16 % 2, b / 8 % 2, b / 4 % 2, b / 2 % 2, b % 2]

/-- The character of a binary digit. -/
def binChar (i : Nat) : Char := if i = 0 then '0' else '1'

/-- Decoding of base2 symbols: reverse-map each symbol to its index in
`base2a` and pack 8 bits per byte, most significant first. -/
def base2decode (syms : List Char) : List Nat :=
  cutBytes (syms.map (fun c => base2a.indexOf c))

/-- Decoding of base16 symbols: reverse-map each symbol to its index in
`base16a` and pack each consecutive pair of 4-bit indices, high nibble
first, into a byte. -/
def base16decode : List Char → List Nat
  | h :: l :: rest => (16 * base16a.indexOf h + base16a.indexOf l) :: base16decode rest
  | _ => []

/-- The macro `TRIBBLE_BIT` of encode.c, line 85. -/
def TRIBBLE_BIT : Nat := 3

/-- The alphabet `base8a` of `base8encode` (encode.c, line 94). -/
def base8a : List Char := "01234567".toList

/-- The pad character `pad_char` of `base8encode` (encode.c, line 95). -/
def pad_char : Char := '='

/-- Lines 117-127 of encode.c: the inner loop of `base8encode` with `n`
iterations left, at position `j`, on `dword` (an `unsigned long`, 64 bits).
A pad position gives `none`; another position gives the index
`int idx = dword >> (3 * CHAR_BIT - TRIBBLE_BIT)`, after which `dword` is
shifted left by 3 and masked with `0xffffff`. -/
def base8inner (bytes : Nat) : Nat → Nat → Nat → List (Option Int)
  | 0, _, _ => []
  | n + 1, j, dword =>
    if j * TRIBBLE_BIT > bytes * CHAR_BIT then
      none :: base8inner bytes n (j + 1) dword
    else
      let idx := toSigned 32 (dword >>> (3 * CHAR_BIT - TRIBBLE_BIT))
      let dword := (dword <<< TRIBBLE_BIT) % 2 ^ 64
      let dword := dword &&& 0xffffff
      some idx :: base8inner bytes n (j + 1) dword

/-- Lines 98-114 of encode.c: `dword` after shifting in the chunk's first byte
and its optional second and third bytes; each `data[i]` is converted from
`char` to `unsigned long` directly. -/
def base8dword (charSigned : Bool) (d0 : Nat) (d1 d2 : Option Nat) : Nat :=
  let dword := toUnsigned 64 (charValue charSigned d0)
  let dword := (dword <<< CHAR_BIT) % 2 ^ 64
  let dword := match d1 with
    | some d => dword ||| toUnsigned 64 (charValue charSigned d)
    | none => dword
  let dword := (dword <<< CHAR_BIT) % 2 ^ 64
  let dword := match d2 with
    | some d => dword ||| toUnsigned 64 (charValue charSigned d)
    | none => dword
  dword

/-- Lines 97-128 of encode.c: the outer loop of `base8encode`; one iteration
consumes up to three elements of `data` (`bytes` counts them) and runs the
inner loop `(3 * CHAR_BIT) / TRIBBLE_BIT` times. The result lists, for every
position, the index used to read `base8a`, or `none` for a pad. -/
def base8loop (charSigned : Bool) : List Nat → List (Option Int)
  | [] => []
  | [d0] =>
    base8inner 1 ((3 * CHAR_BIT) / TRIBBLE_BIT) 0 (base8dword charSigned d0 none none)
  | [d0, d1] =>
    base8inner 2 ((3 * CHAR_BIT) / TRIBBLE_BIT) 0 (base8dword charSigned d0 (some d1) none)
  | d0 :: d1 :: d2 :: rest =>
    base8inner 3 ((3 * CHAR_BIT) / TRIBBLE_BIT) 0
        (base8dword charSigned d0 (some d1) (some d2)) ++
      base8loop charSigned rest

/-- The character printed at one position: `pad_char` for a pad, else the
array read `base8a[idx]`; the array has 9 elements (the last is the NUL), a
read outside it has no defined result (`none`). -/
def base8put : Option Int → Option Char
  | none => some pad_char
  | some idx =>
    if 0 ≤ idx ∧ idx < 9 then some (base8a.getD idx.toNat (Char.ofNat 0)) else none

/-- The characters printed for a list of positions, followed by the final
newline of line 129; `none` when some array read is out of bounds. -/
def base8print : List (Option Int) → Option (List Char)
  | [] => some ['\n']
  | p :: rest =>
    match base8put p, base8print rest with
    | some c, some cs => some (c :: cs)
    | _, _ => none

/-- The function `base8encode` of encode.c: what it writes for the bytes
`data`, the final newline included; `none` when it reads outside `base8a`. -/
def base8encode (charSigned : Bool) (data : List Nat) : Option (List Char) :=
  base8print (base8loop charSigned data)

/-- The eight octal digits of a 24-bit integer, most significant first. -/
def octalDigits (p : Nat) : List Nat :=
  [p / 2097152 % 8, p / 262144 % 8, p / 32768 % 8, p / 4096 % 8, p / 512 % 8, p / 64 % 8,
   p / 8 % 8, p % 8]

/-- The character of an octal digit. -/
def octChar (i : Nat) : Char := Char.ofNat (48 + i)

/-- The 24-bit integers of the consecutive 3-byte chunks of an input, each
packed most significant byte first. -/
def chunks3 : List Nat → List Nat
  | b0 :: b1 :: b2 :: rest => (b0 * 65536 + b1 * 256 + b2) :: chunks3 rest
  | _ => []

end Encode

namespace Base64

/-- What one call `fread(buf, 1, sizeof buf, stdin)` of line 39 returns: the
bytes stored in `buf` (their number is `nr`, at most 3) and whether the error
indicator of the stream is set after the call (`ferror(stdin)`). -/
structure ReadResult where
  bytes : List Nat
  error : Bool
deriving DecidableEq

/-- How a run of the program ends: `exited status named` is a call of `exit`
(through `return`, `err` or `errx`) with the file or stream named in the
error message, if any; `aborted` is a failed assertion. -/
inductive Outcome where
  | exited (status : Nat) (named : Option String)
  | aborted
deriving DecidableEq

/-- State of `stdout`: the characters delivered so far, the number of write
calls made, and the error indicator of the stream. -/
structure Sink where
  written : List Char
  calls : Nat
  failed : Bool
deriving DecidableEq

/-- One write call on `stdout` (`fwrite` followed by `fflush`, or `putchar`):
`ok k` tells whether call number `k` succeeds; a failing call delivers nothing
and sets the error indicator. Returns the new state and the success of the
call, which is what the C function reports to its caller. -/
def Sink.put (ok : Nat → Bool) (st : Sink) (data : List Char) : Sink × Bool :=
  if ok st.calls = true then
    ({ written := st.written ++ data, calls := st.calls + 1, failed := st.failed }, true)
  else
    ({ written := st.written, calls := st.calls + 1, failed := true }, false)

/-- Lines 83-85 of base64.c: after the loop `putchar` of a newline unless the
column is 0 (its result is not looked at), then `return EXIT_SUCCESS`. -/
def ioFinish (ok : Nat → Bool) (line_char : Nat) (st : Sink) : Sink × Outcome :=
  let st := if line_char ≠ 0 then (Sink.put ok st ['\n']).1 else st
  (st, Outcome.exited 0 none)

/-- Lines 36-85 of base64.c with its input and output made explicit: the
successive results of `fread` (an exhausted list is the end of file: `fread`
returns 0 without error), the column counter and the state of `stdout`.
A short read with the error indicator set ends the run through
`err(EXIT_FAILURE, "%s", fn)`; the results of `fwrite`, `fflush` and
`putchar` are not looked at. -/
def ioLoop (ok : Nat → Bool) (fn : String) : List ReadResult → Nat → Sink → Sink × Outcome
  | [], line_char, st => ioFinish ok line_char st
  | r :: rest, line_char, st =>
    let nr := r.bytes.length
    if nr < 3 ∧ r.error = true then (st, Outcome.exited 1 (some fn))
    else if nr = 0 then ioFinish ok line_char st
    else
      let b64o := encodeChunk (r.bytes.getD 0 0) (r.bytes.getD 1 0) (r.bytes.getD 2 0) nr
      let st := (Sink.put ok st b64o).1
      let line_char := line_char + 4
      if line_char ≥ 76 then
        if line_char = 76 then
          let st := (Sink.put ok st ['\n']).1
          if nr < 3 then ioFinish ok 0 st else ioLoop ok fn rest 0 st
        else (st, Outcome.aborted)
      else if nr < 3 then ioFinish ok line_char st
      else ioLoop ok fn rest line_char st

/-- The function `main` of base64.c: `argv` is the argument vector (program
name first), `stdin` the results of reading standard input, `fopen name` the
results of reading the file `name` when `freopen(name, "r", stdin)` succeeds
(`none` when it fails), `ok` the behaviour of `stdout`. -/
def main (argv : List String) (stdin : List ReadResult)
    (fopen : String → Option (List ReadResult)) (ok : Nat → Bool) : Sink × Outcome :=
  let fn := "-"
  let st : Sink := { written := [], calls := 0, failed := false }
  if argv.length > 2 then (st, Outcome.exited 1 none)
  else if argv.length > 1 then
    let fn := argv.getD 1 ""
    match fopen fn with
    | none => (st, Outcome.exited 1 (some fn))
    | some reads => ioLoop ok fn reads 0 st
  else ioLoop ok fn stdin 0 st

/-- The results of the successive `fread` calls on a stream holding the bytes
`x` when no read fails: chunks of 3 bytes, the last one possibly shorter. -/
def readsOf : List Nat → List ReadResult
  | [] => []
  | [b0] => [{ bytes := [b0], error := false }]
  | [b0, b1] => [{ bytes := [b0, b1], error := false }]
  | b0 :: b1 :: b2 :: rest => { bytes := [b0, b1, b2], error := false } :: readsOf rest

/-- The values of `line_char` at the head of the successive iterations of the
loop of base64.c on the input `x`, starting from `line_char`. -/
def loopHeads : List Nat → Nat → List Nat
  | [], line_char => [line_char]
  | [_], line_char => [line_char]
  | [_, _], line_char => [line_char]
  | _ :: _ :: _ :: rest, line_char =>
    line_char :: (match lineWrap line_char with
      | none => []
      | some (_, lc) => loopHeads rest lc)

end Base64

/-! ## Shared arithmetic lemmas -/

theorem and_0x3f (x : Nat) : x &&& 0x3f = x % 64 :=
  Nat.and_pow_two_sub_one_eq_mod x 6

theorem shl_or_byte (a b : Nat) (ha : a < 2 ^ 56) (hb : b < 256) :
    (a <<< CHAR_BIT) % 2 ^ 64 ||| b = a * 256 + b := by
  have h := Nat.mul_add_lt_is_or (i := 8) (b := b) (by simpa using hb) a
  have e : (a <<< CHAR_BIT) % 2 ^ 64 = 2 ^ 8 * a := by
    rw [CHAR_BIT, Nat.shiftLeft_eq, Nat.mod_eq_of_lt (by omega)]; ring
  rw [e, ← h]; ring

namespace Base64

theorem packBits_eq (b0 b1 b2 : Nat) (h0 : b0 < 256) (h1 : b1 < 256) (h2 : b2 < 256) :
    packBits b0 b1 b2 = b0 * 65536 + b1 * 256 + b2 := by
  unfold packBits
  simp only [Nat.zero_or]
  rw [shl_or_byte b0 b1 (by omega) h1, shl_or_byte _ b2 (by omega) h2]
  ring

theorem b64i_eq (p : Nat) (hp : p < 2 ^ 24) :
    b64i p = [p / 262144, p / 4096 % 64, p / 64 % 64, p % 64] := by
  unfold b64i
  simp only [and_0x3f, Nat.shiftRight_eq_div_pow, List.cons.injEq, and_true]
  refine ⟨?_, ?_, ?_, ?_⟩ <;> omega

theorem b64a_length : b64a.length = 64 := by decide

theorem b64aAt_eq (i : Nat) (h : i < 64) : b64a[i]? = some (b64aAt i) := by
  unfold b64aAt
  rw [List.getD_eq_getElem _ _ (by rw [b64a_length]; exact h)]
  exact List.getElem?_eq_getElem _

theorem specExtract_eq (p : Nat) (_hp : p < 2 ^ 24) :
    specExtract 4 p = [p / 262144, p / 4096 % 64, p / 64 % 64, p % 64] := by
  simp only [specExtract, List.cons.injEq, and_true]
  refine ⟨?_, ?_, ?_, ?_⟩ <;> omega

/-- C1: the base64 encoder maps "foo" to "Zm9v" and a newline, "fo" to "Zm8="
and a newline, "f" to "Zg==" and a newline, and the empty input to the empty
output (no newline). -/
theorem encode_scenarios :
    encode [0x66, 0x6F, 0x6F] = some "Zm9v\n".toList ∧
    encode [0x66, 0x6F] = some "Zm8=\n".toList ∧
    encode [0x66] = some "Zg==\n".toList ∧
    encode [] = some [] := by
  decide

/-- C2: for a chunk of `r` bytes (1 ≤ r ≤ 3) held in the buffer `b0 b1 b2`
(whatever the unread positions hold, so in particular when zero-filled), with
`P = b0*65536 + b1*256 + b2` the packed 24-bit integer, the indices computed
by the code are `(P >> (18 - 6*j)) & 63` for `j = 0..3`, they are the indices
of the specification's top-6-bits-then-shift-left extraction, each is below
64, and the character written at a non-pad position `j` is `b64a[index_j]`. -/
theorem chunk_indices (b0 b1 b2 r : Nat) (hr1 : 1 ≤ r) (hr3 : r ≤ 3)
    (h0 : b0 < 256) (h1 : b1 < 256) (h2 : b2 < 256) :
    packBits b0 b1 b2 = b0 * 65536 + b1 * 256 + b2 ∧
    b64i (packBits b0 b1 b2) =
      (List.range 4).map
        (fun j => ((b0 * 65536 + b1 * 256 + b2) >>> (18 - 6 * j)) &&& 63) ∧
    b64i (packBits b0 b1 b2) = specExtract 4 (b0 * 65536 + b1 * 256 + b2) ∧
    (∀ i ∈ b64i (packBits b0 b1 b2), i < 64) ∧
    (∀ j, j < 4 → j ≤ r → ∃ i, (b64i (packBits b0 b1 b2))[j]? = some i ∧ i < 64 ∧
      (encodeChunk b0 b1 b2 r)[j]? = b64a[i]?) := by
  have hp : b0 * 65536 + b1 * 256 + b2 < 2 ^ 24 := by omega
  have e := packBits_eq b0 b1 b2 h0 h1 h2
  generalize hP : b0 * 65536 + b1 * 256 + b2 = P at e hp ⊢
  refine ⟨e, ?_, ?_, ?_, ?_⟩
  · rw [e, b64i_eq _ hp]
    have a63 : ∀ x : Nat, x &&& 63 = x % 64 := and_0x3f
    simp only [List.range, List.range.loop, List.map, a63, Nat.shiftRight_eq_div_pow,
      List.cons.injEq, and_true]
    refine ⟨?_, ?_, ?_, ?_⟩
    all_goals norm_num
    all_goals omega
  · rw [e, b64i_eq _ hp, specExtract_eq _ hp]
  · rw [e, b64i_eq _ hp]
    intro i hi
    simp only [List.mem_cons, List.mem_singleton, List.not_mem_nil, or_false] at hi
    omega
  · intro j hj hjr
    unfold encodeChunk
    rw [e, b64i_eq _ hp]
    interval_cases j
    · exact ⟨P / 262144, rfl, by omega, by
        rw [b64aAt_eq _ (by omega)]; rfl⟩
    · exact ⟨P / 4096 % 64, rfl, by omega, by
        rw [b64aAt_eq _ (by omega)]; rfl⟩
    · have hr : ¬ r < 2 := by omega
      exact ⟨P / 64 % 64, rfl, by omega, by
        rw [b64aAt_eq _ (by omega)]; simp [b64o, hr]⟩
    · have hr : ¬ r < 3 := by omega
      exact ⟨P % 64, rfl, by omega, by
        rw [b64aAt_eq _ (by omega)]; simp [b64o, hr]⟩

/-- Witness of C2 at the chunk "fo" (r = 2, zero-filled third byte). -/
theorem chunk_indices_witness :
    packBits 0x66 0x6F 0 = 0x66 * 65536 + 0x6F * 256 + 0 ∧
    b64i (packBits 0x66 0x6F 0) =
      (List.range 4).map
        (fun j => ((0x66 * 65536 + 0x6F * 256 + 0) >>> (18 - 6 * j)) &&& 63) ∧
    b64i (packBits 0x66 0x6F 0) = specExtract 4 (0x66 * 65536 + 0x6F * 256 + 0) ∧
    (∀ i ∈ b64i (packBits 0x66 0x6F 0), i < 64) ∧
    (∀ j, j < 4 → j ≤ 2 → ∃ i, (b64i (packBits 0x66 0x6F 0))[j]? = some i ∧ i < 64 ∧
      (encodeChunk 0x66 0x6F 0 2)[j]? = b64a[i]?) :=
  chunk_indices 0x66 0x6F 0 2 (by decide) (by decide) (by decide) (by decide) (by decide)

/-! ## The loop as line-wrapping of the symbol stream -/

theorem chunk3_induction {P : List Nat → Prop} (h0 : P []) (h1 : ∀ a, P [a])
    (h2 : ∀ a b, P [a, b]) (h3 : ∀ a b c rest, P rest → P (a :: b :: c :: rest)) :
    ∀ x, P x
  | [] => h0
  | [a] => h1 a
  | [a, b] => h2 a b
  | a :: b :: c :: rest => h3 a b c rest (chunk3_induction h0 h1 h2 h3 rest)

theorem encodeChunk_eq (b0 b1 b2 nr : Nat) :
    encodeChunk b0 b1 b2 nr =
      [(encodeChunk b0 b1 b2 nr).getD 0 '=', (encodeChunk b0 b1 b2 nr).getD 1 '=',
       (encodeChunk b0 b1 b2 nr).getD 2 '=', (encodeChunk b0 b1 b2 nr).getD 3 '='] := rfl

theorem encodeChunk_length (b0 b1 b2 nr : Nat) : (encodeChunk b0 b1 b2 nr).length = 4 := rfl

theorem wrapSymbols_four (c : Nat) (s0 s1 s2 s3 : Char) (rest : List Char)
    (h4 : c % 4 = 0) :
    wrapSymbols c (s0 :: s1 :: s2 :: s3 :: rest) =
      s0 :: s1 :: s2 :: s3 ::
        (if c + 4 = 76 then '\n' :: wrapSymbols 0 rest else wrapSymbols (c + 4) rest) := by
  have e1 : ¬ c + 1 = 76 := by omega
  have e2 : ¬ c + 1 + 1 = 76 := by omega
  have e3 : ¬ c + 1 + 1 + 1 = 76 := by omega
  simp only [wrapSymbols, e1, e2, e3, if_false]
  by_cases h : c + 4 = 76
  · have h' : c + 1 + 1 + 1 + 1 = 76 := by omega
    simp [h, h']
  · have h' : ¬ c + 1 + 1 + 1 + 1 = 76 := by omega
    simp [h, h']

theorem lineWrap_eq (lc : Nat) (h4 : lc % 4 = 0) (hc : lc < 76) :
    lineWrap lc = some (if lc + 4 = 76 then (['\n'], 0) else ([], lc + 4)) := by
  unfold lineWrap
  by_cases h : lc + 4 = 76
  · simp [h]
  · have h' : ¬ lc + 4 ≥ 76 := by omega
    simp [h, h']

theorem mainLoop_eq : ∀ (x : List Nat) (lc : Nat), lc % 4 = 0 → lc < 76 →
    mainLoop x lc = some (wrapSymbols lc (symbolStream x)) := by
  intro x
  induction x using chunk3_induction with
  | h0 => intro lc _ _; rfl
  | h1 a =>
    intro lc h4 hc
    simp only [mainLoop, symbolStream, lineWrap_eq lc h4 hc]
    rw [encodeChunk_eq, wrapSymbols_four _ _ _ _ _ _ h4]
    by_cases h : lc + 4 = 76 <;> simp [h, finish, wrapSymbols]
  | h2 a b =>
    intro lc h4 hc
    simp only [mainLoop, symbolStream, lineWrap_eq lc h4 hc]
    rw [encodeChunk_eq, wrapSymbols_four _ _ _ _ _ _ h4]
    by_cases h : lc + 4 = 76 <;> simp [h, finish, wrapSymbols]
  | h3 a b c rest ih =>
    intro lc h4 hc
    simp only [mainLoop, symbolStream, lineWrap_eq lc h4 hc]
    rw [encodeChunk_eq]
    simp only [List.cons_append, List.nil_append]
    rw [wrapSymbols_four _ _ _ _ _ _ h4]
    by_cases h : lc + 4 = 76
    · simp [h, ih 0 (by omega) (by omega)]
    · simp [h, ih (lc + 4) (by omega) (by omega)]

theorem encode_eq (x : List Nat) : encode x = some (wrapSymbols 0 (symbolStream x)) :=
  mainLoop_eq x 0 (by decide) (by decide)

/-! ## Symbols, indices and pads -/

theorem b64aAt_props : ∀ i, i < 64 →
    b64aAt i ≠ '\n' ∧ b64aAt i ≠ '=' ∧ b64a.indexOf (b64aAt i) = i := by
  decide

theorem symbolStream_eq : ∀ x, Bytes x →
    symbolStream x =
      (indexStream x).map b64aAt ++ List.replicate (padCount x.length) '=' := by
  intro x
  induction x using chunk3_induction with
  | h0 => intro _; rfl
  | h1 a => intro _; rfl
  | h2 a b => intro _; rfl
  | h3 a b c rest ih =>
    intro hx
    have hr : Bytes rest := fun y hy => hx y (by simp [hy])
    have hp : padCount (a :: b :: c :: rest).length = padCount rest.length := by
      have e : (rest.length + 1 + 1 + 1) % 3 = rest.length % 3 := by omega
      simp only [padCount, List.length_cons, e]
    rw [hp]
    simp only [symbolStream, indexStream, ih hr, List.map_append, List.append_assoc]
    rfl

theorem indexStream_lt : ∀ x, Bytes x → ∀ i ∈ indexStream x, i < 64 := by
  intro x
  induction x using chunk3_induction with
  | h0 => intro _ i hi; simp [indexStream] at hi
  | h1 a =>
    intro hx i hi
    have ha : a < 256 := hx a (by simp)
    have hi := List.mem_of_mem_take hi
    rw [packBits_eq a 0 0 ha (by decide) (by decide), b64i_eq _ (by omega)] at hi
    simp only [List.mem_cons, List.mem_singleton, List.not_mem_nil, or_false] at hi
    omega
  | h2 a b =>
    intro hx i hi
    have ha : a < 256 := hx a (by simp)
    have hb : b < 256 := hx b (by simp)
    have hi := List.mem_of_mem_take hi
    rw [packBits_eq a b 0 ha hb (by decide), b64i_eq _ (by omega)] at hi
    simp only [List.mem_cons, List.mem_singleton, List.not_mem_nil, or_false] at hi
    omega
  | h3 a b c rest ih =>
    intro hx i hi
    have ha : a < 256 := hx a (by simp)
    have hb : b < 256 := hx b (by simp)
    have hc : c < 256 := hx c (by simp)
    have hr : Bytes rest := fun y hy => hx y (by simp [hy])
    rw [indexStream, packBits_eq a b c ha hb hc, b64i_eq _ (by omega)] at hi
    simp only [List.mem_append, List.mem_cons, List.mem_singleton, List.not_mem_nil,
      or_false] at hi
    rcases hi with hi | hi
    · omega
    · exact ih hr i hi

theorem symbolStream_length : ∀ x, (symbolStream x).length = 4 * ((x.length + 2) / 3) := by
  intro x
  induction x using chunk3_induction with
  | h0 => rfl
  | h1 a => rw [symbolStream, encodeChunk_length]; simp
  | h2 a b => rw [symbolStream, encodeChunk_length]; simp
  | h3 a b c rest ih =>
    rw [symbolStream, List.length_append, encodeChunk_length, ih]
    simp only [List.length_cons]
    omega

theorem newline_not_mem_symbolStream (x : List Nat) (hx : Bytes x) :
    '\n' ∉ symbolStream x := by
  rw [symbolStream_eq x hx]
  intro h
  rcases List.mem_append.1 h with h | h
  · obtain ⟨i, hi, e⟩ := List.mem_map.1 h
    exact (b64aAt_props i (indexStream_lt x hx i hi)).1 e
  · have := List.eq_of_mem_replicate h
    exact absurd this (by decide)

theorem pad_not_mem_indexStream (x : List Nat) (hx : Bytes x) :
    '=' ∉ (indexStream x).map b64aAt := by
  intro h
  obtain ⟨i, hi, e⟩ := List.mem_map.1 h
  exact (b64aAt_props i (indexStream_lt x hx i hi)).2.1 e

theorem symbolsOf_wrapSymbols : ∀ (syms : List Char) (c : Nat), '\n' ∉ syms →
    symbolsOf (wrapSymbols c syms) = syms := by
  intro syms
  induction syms with
  | nil =>
    intro c _
    by_cases h : c = 0 <;> simp [wrapSymbols, symbolsOf, h]
  | cons s rest ih =>
    intro c hn
    have hs : s ≠ '\n' := fun e => hn (by simp [e])
    have hr : '\n' ∉ rest := fun e => hn (by simp [e])
    have i0 := ih 0 hr
    have i1 := ih (c + 1) hr
    have ks : (s != '\n') = true := by simpa using hs
    unfold symbolsOf at i0 i1 ⊢
    by_cases h : c + 1 = 76
    · rw [wrapSymbols, if_pos h]
      simp only [List.filter_cons, ks, bne_self_eq_false, if_true, i0]
      rfl
    · rw [wrapSymbols, if_neg h]
      simp only [List.filter_cons, ks, if_true, i1]

theorem symbolsOf_encode (x : List Nat) (hx : Bytes x) :
    symbolsOf (wrapSymbols 0 (symbolStream x)) = symbolStream x :=
  symbolsOf_wrapSymbols _ 0 (newline_not_mem_symbolStream x hx)

theorem count_pad_symbolsOf (out : List Char) :
    out.count '=' = (symbolsOf out).count '=' := by
  induction out with
  | nil => rfl
  | cons c rest ih =>
    unfold symbolsOf at ih ⊢
    by_cases hc : c = '\n'
    · subst hc
      rw [List.count_cons_of_ne (by decide), ih]
      simp only [List.filter_cons, bne_self_eq_false]
      rfl
    · have kc : (c != '\n') = true := by simpa using hc
      simp only [List.filter_cons, kc, if_true, List.count_cons, ih]

theorem count_pad_encode (x : List Nat) (hx : Bytes x) :
    (wrapSymbols 0 (symbolStream x)).count '=' = padCount x.length := by
  rw [count_pad_symbolsOf, symbolsOf_encode x hx, symbolStream_eq x hx, List.count_append,
    List.count_eq_zero.2 (pad_not_mem_indexStream x hx), List.count_replicate_self]
  omega

/-- C3: for every byte sequence of length `n` the output has exactly 0, 2 or 1
pad characters when `n % 3` is 0, 1 or 2; the symbol stream is a pad-free body
followed by exactly those pads, and its length is a multiple of 4, so the pads
are the last symbols of the final 4-symbol group; `n = 0` gives the empty
output and `n = 3` gives exactly 4 symbols, none a pad. -/
theorem pad_characters (x : List Nat) (hx : Bytes x) :
    ∃ out body, encode x = some out ∧
      (x.length % 3 = 0 → out.count '=' = 0) ∧
      (x.length % 3 = 1 → out.count '=' = 2) ∧
      (x.length % 3 = 2 → out.count '=' = 1) ∧
      symbolsOf out = body ++ List.replicate (out.count '=') '=' ∧ '=' ∉ body ∧
      (symbolsOf out).length % 4 = 0 ∧
      (x.length = 0 → out = []) ∧
      (x.length = 3 → (symbolsOf out).length = 4 ∧ '=' ∉ out) := by
  refine ⟨wrapSymbols 0 (symbolStream x), (indexStream x).map b64aAt, encode_eq x, ?_⟩
  have hc := count_pad_encode x hx
  have hs := symbolsOf_encode x hx
  have hl := symbolStream_length x
  rw [hc, hs]
  refine ⟨?_, ?_, ?_, symbolStream_eq x hx, pad_not_mem_indexStream x hx, ?_, ?_, ?_⟩
  · intro h; simp [padCount, h]
  · intro h; simp [padCount, h]
  · intro h; simp [padCount, h]
  · omega
  · intro h
    rw [List.length_eq_zero.1 h]; rfl
  · intro h
    refine ⟨by omega, ?_⟩
    apply List.count_eq_zero.1
    rw [hc]; simp [padCount, h]

/-- Witness of C3 at the two bytes of "fo". -/
theorem pad_characters_witness :
    ∃ out body, encode [0x66, 0x6F] = some out ∧
      ([0x66, 0x6F].length % 3 = 0 → out.count '=' = 0) ∧
      ([0x66, 0x6F].length % 3 = 1 → out.count '=' = 2) ∧
      ([0x66, 0x6F].length % 3 = 2 → out.count '=' = 1) ∧
      symbolsOf out = body ++ List.replicate (out.count '=') '=' ∧ '=' ∉ body ∧
      (symbolsOf out).length % 4 = 0 ∧
      ([0x66, 0x6F].length = 0 → out = []) ∧
      ([0x66, 0x6F].length = 3 → (symbolsOf out).length = 4 ∧ '=' ∉ out) :=
  pad_characters [0x66, 0x6F] (by decide)

/-! ## Decoding -/

theorem rdropWhile_pads (l : List Char) (hl : '=' ∉ l) : ∀ p : Nat,
    (l ++ List.replicate p '=').rdropWhile (fun c => c == '=') = l := by
  intro p
  induction p with
  | zero =>
    rw [List.replicate_zero, List.append_nil, List.rdropWhile_eq_self_iff]
    intro hne h
    have hm := List.getLast_mem hne
    have e : l.getLast hne = '=' := by simpa using h
    exact hl (e ▸ hm)
  | succ p ih =>
    rw [List.replicate_succ', ← List.append_assoc, List.rdropWhile_concat_pos _ _ _ (by decide)]
    exact ih

theorem map_indexOf_b64aAt : ∀ l : List Nat, (∀ i ∈ l, i < 64) →
    (l.map b64aAt).map (fun c => b64a.indexOf c) = l := by
  intro l
  induction l with
  | nil => intro _; rfl
  | cons i rest ih =>
    intro h
    rw [List.map_cons, List.map_cons, (b64aAt_props i (h i (by simp))).2.2,
      ih (fun j hj => h j (by simp [hj]))]

theorem cutBytes_cons8 (b7 b6 b5 b4 b3 b2 b1 b0 : Nat) (rest : List Nat) :
    cutBytes (b7 :: b6 :: b5 :: b4 :: b3 :: b2 :: b1 :: b0 :: rest) =
      (128 * b7 + 64 * b6 + 32 * b5 + 16 * b4 + 8 * b3 + 4 * b2 + 2 * b1 + b0) ::
        cutBytes rest := by
  rw [cutBytes]

theorem index_split (a b c : Nat) (hb : b < 256) (hc : c < 256) :
    (a * 65536 + b * 256 + c) / 262144 = a / 4 ∧
    (a * 65536 + b * 256 + c) / 4096 % 64 = a % 4 * 16 + b / 16 ∧
    (a * 65536 + b * 256 + c) / 64 % 64 = b % 16 * 4 + c / 64 ∧
    (a * 65536 + b * 256 + c) % 64 = c % 64 := by
  refine ⟨?_, ?_, ?_, ?_⟩ <;> omega

theorem first_byte (a b : Nat) (ha : a < 256) (hb : b < 256) :
    128 * (a / 4 / 32 % 2) + 64 * (a / 4 / 16 % 2) + 32 * (a / 4 / 8 % 2) +
      16 * (a / 4 / 4 % 2) + 8 * (a / 4 / 2 % 2) + 4 * (a / 4 % 2) +
      2 * ((a % 4 * 16 + b / 16) / 32 % 2) + (a % 4 * 16 + b / 16) / 16 % 2 = a := by
  omega

theorem second_byte (a b c : Nat) (hb : b < 256) (hc : c < 256) :
    128 * ((a % 4 * 16 + b / 16) / 8 % 2) + 64 * ((a % 4 * 16 + b / 16) / 4 % 2) +
      32 * ((a % 4 * 16 + b / 16) / 2 % 2) + 16 * ((a % 4 * 16 + b / 16) % 2) +
      8 * ((b % 16 * 4 + c / 64) / 32 % 2) + 4 * ((b % 16 * 4 + c / 64) / 16 % 2) +
      2 * ((b % 16 * 4 + c / 64) / 8 % 2) + (b % 16 * 4 + c / 64) / 4 % 2 = b := by
  omega

theorem third_byte (b c : Nat) (hc : c < 256) :
    128 * ((b % 16 * 4 + c / 64) / 2 % 2) + 64 * ((b % 16 * 4 + c / 64) % 2) +
      32 * (c % 64 / 32 % 2) + 16 * (c % 64 / 16 % 2) + 8 * (c % 64 / 8 % 2) +
      4 * (c % 64 / 4 % 2) + 2 * (c % 64 / 2 % 2) + c % 64 % 2 = c := by
  omega

theorem cutBytes_indexStream : ∀ x, Bytes x →
    cutBytes ((indexStream x).flatMap bits6) = x := by
  intro x
  induction x using chunk3_induction with
  | h0 => intro _; rfl
  | h1 a =>
    intro hx
    have ha : a < 256 := hx a (by simp)
    obtain ⟨e0, e1, _, _⟩ := index_split a 0 0 (by decide) (by decide)
    rw [indexStream, packBits_eq a 0 0 ha (by decide) (by decide), b64i_eq _ (by omega),
      e0, e1]
    simp only [List.take, List.flatMap_cons, List.flatMap_nil, bits6, List.cons_append,
      List.nil_append, List.append_nil]
    rw [cutBytes_cons8, first_byte a 0 ha (by decide)]
    rfl
  | h2 a b =>
    intro hx
    have ha : a < 256 := hx a (by simp)
    have hb : b < 256 := hx b (by simp)
    obtain ⟨e0, e1, e2, _⟩ := index_split a b 0 hb (by decide)
    rw [indexStream, packBits_eq a b 0 ha hb (by decide), b64i_eq _ (by omega), e0, e1, e2]
    simp only [List.take, List.flatMap_cons, List.flatMap_nil, bits6, List.cons_append,
      List.nil_append, List.append_nil]
    rw [cutBytes_cons8, cutBytes_cons8, first_byte a b ha hb,
      second_byte a b 0 hb (by decide)]
    rfl
  | h3 a b c rest ih =>
    intro hx
    have ha : a < 256 := hx a (by simp)
    have hb : b < 256 := hx b (by simp)
    have hc : c < 256 := hx c (by simp)
    have hr : Bytes rest := fun y hy => hx y (by simp [hy])
    obtain ⟨e0, e1, e2, e3⟩ := index_split a b c hb hc
    rw [indexStream, packBits_eq a b c ha hb hc, b64i_eq _ (by omega), e0, e1, e2, e3]
    simp only [List.flatMap_append, List.flatMap_cons, List.flatMap_nil, bits6,
      List.cons_append, List.nil_append, List.append_nil]
    rw [cutBytes_cons8, cutBytes_cons8, cutBytes_cons8, first_byte a b ha hb,
      second_byte a b c hb hc, third_byte b c hc, ih hr]

theorem decode_wrapSymbols (x : List Nat) (hx : Bytes x) :
    decode (wrapSymbols 0 (symbolStream x)) = x := by
  unfold decode
  simp only []
  rw [symbolsOf_encode x hx, symbolStream_eq x hx,
    rdropWhile_pads _ (pad_not_mem_indexStream x hx),
    map_indexOf_b64aAt _ (indexStream_lt x hx), cutBytes_indexStream x hx]

/-- C4: with `decode` the inverse mapping (drop newlines, drop trailing pads,
map symbols to their `b64a` indices, concatenate the 6-bit groups and cut into
whole bytes), `decode (encode x) = x` for every byte sequence `x`, hence
`encode (decode (encode x)) = encode x`, and the encoder is injective on byte
sequences. -/
theorem decode_encode (x y : List Nat) (hx : Bytes x) (hy : Bytes y) :
    (∃ out, encode x = some out ∧ decode out = x ∧ encode (decode out) = some out) ∧
    (encode x = encode y → x = y) := by
  have dx := decode_wrapSymbols x hx
  have dy := decode_wrapSymbols y hy
  refine ⟨⟨_, encode_eq x, dx, ?_⟩, ?_⟩
  · rw [dx]; exact encode_eq x
  · intro h
    rw [encode_eq x, encode_eq y] at h
    have h' := Option.some.inj h
    rw [← dx, ← dy, h']

/-- Witness of C4 at "foo" and "fo". -/
theorem decode_encode_witness :
    (∃ out, encode [0x66, 0x6F, 0x6F] = some out ∧ decode out = [0x66, 0x6F, 0x6F] ∧
      encode (decode out) = some out) ∧
    (encode [0x66, 0x6F, 0x6F] = encode [0x66, 0x6F] → [0x66, 0x6F, 0x6F] = [0x66, 0x6F]) :=
  decode_encode [0x66, 0x6F, 0x6F] [0x66, 0x6F] (by decide) (by decide)

/-! ## Line structure of the output -/

theorem wrap_short : ∀ (syms : List Char) (c : Nat), c + syms.length < 76 →
    wrapSymbols c syms = syms ++ finish (c + syms.length) := by
  intro syms
  induction syms with
  | nil => intro c _; rfl
  | cons s rest ih =>
    intro c h
    rw [List.length_cons] at h
    have h1 : ¬ c + 1 = 76 := by omega
    rw [wrapSymbols, if_neg h1, ih (c + 1) (by omega), List.length_cons]
    have e : c + 1 + rest.length = c + (rest.length + 1) := by omega
    rw [e]; rfl

theorem wrap_long : ∀ (syms : List Char) (c : Nat), c < 76 → 76 ≤ c + syms.length →
    wrapSymbols c syms =
      syms.take (76 - c) ++ '\n' :: wrapSymbols 0 (syms.drop (76 - c)) := by
  intro syms
  induction syms with
  | nil => intro c h1 h2; simp at h2; omega
  | cons s rest ih =>
    intro c hc h
    rw [List.length_cons] at h
    by_cases h1 : c + 1 = 76
    · have e : 76 - c = 1 := by omega
      rw [wrapSymbols, if_pos h1, e]
      rfl
    · have e : 76 - c = (76 - (c + 1)) + 1 := by omega
      rw [wrapSymbols, if_neg h1, ih (c + 1) (by omega) (by omega), e]
      rfl

theorem wrap_lines : ∀ (n : Nat) (syms : List Char), syms.length ≤ n →
    ∃ lines : List (List Char),
      wrapSymbols 0 syms = (lines.map (fun l => l ++ ['\n'])).flatten ∧
      lines.flatten = syms ∧
      (∀ l ∈ lines, 1 ≤ l.length ∧ l.length ≤ 76) ∧
      (∀ l ∈ lines.dropLast, l.length = 76) := by
  intro n
  induction n using Nat.strong_induction_on with
  | _ n ih =>
    intro syms hn
    by_cases h0 : syms = []
    · subst h0
      exact ⟨[], rfl, rfl, by simp, by simp⟩
    by_cases hs : syms.length < 76
    · have hpos : 0 < syms.length := List.length_pos.2 h0
      refine ⟨[syms], ?_, by simp, ?_, by simp⟩
      · rw [wrap_short syms 0 (by omega)]
        have : finish (0 + syms.length) = ['\n'] := by
          unfold finish
          rw [if_pos (by omega)]
        rw [this]
        simp
      · intro l hl
        rw [List.mem_singleton] at hl
        subst hl
        omega
    · have hlen : (syms.drop 76).length < n := by
        rw [List.length_drop]; omega
      obtain ⟨ls, e1, e2, e3, e4⟩ := ih _ hlen (syms.drop 76) (le_refl _)
      have ht : (syms.take 76).length = 76 := by
        rw [List.length_take]; omega
      refine ⟨syms.take 76 :: ls, ?_, ?_, ?_, ?_⟩
      · rw [wrap_long syms 0 (by omega) (by omega), e1]
        simp
      · rw [List.flatten_cons, e2, List.take_append_drop]
      · intro l hl
        rcases List.mem_cons.1 hl with hl | hl
        · subst hl; omega
        · exact e3 l hl
      · intro l hl
        by_cases hls : ls = []
        · subst hls; simp at hl
        · rw [List.dropLast_cons_of_ne_nil hls] at hl
          rcases List.mem_cons.1 hl with hl | hl
          · subst hl; exact ht
          · exact e4 l hl

theorem wrap_count_newline : ∀ (syms : List Char) (c : Nat), c < 76 → '\n' ∉ syms →
    (wrapSymbols c syms).count '\n' = (c + syms.length + 75) / 76 := by
  intro syms
  induction syms with
  | nil =>
    intro c hc _
    by_cases h : c = 0
    · subst h; rfl
    · rw [wrapSymbols, if_pos h]
      have : (c + ([] : List Char).length + 75) / 76 = 1 := by
        simp only [List.length_nil]; omega
      rw [this]; rfl
  | cons s rest ih =>
    intro c hc hn
    have hs : s ≠ '\n' := fun e => hn (by simp [e])
    have hr : '\n' ∉ rest := fun e => hn (by simp [e])
    by_cases h : c + 1 = 76
    · rw [wrapSymbols, if_pos h, List.count_cons_of_ne (Ne.symm hs), List.count_cons_self,
        ih 0 (by omega) hr, List.length_cons]
      omega
    · rw [wrapSymbols, if_neg h, List.count_cons_of_ne (Ne.symm hs), ih (c + 1) (by omega) hr,
        List.length_cons]
      have e : c + 1 + rest.length + 75 = c + (rest.length + 1) + 75 := by omega
      rw [e]

theorem wrap_head : ∀ (syms : List Char) (c : Nat), syms ≠ [] →
    (wrapSymbols c syms).head? = syms.head? := by
  intro syms c h
  cases syms with
  | nil => exact absurd rfl h
  | cons s rest =>
    rw [wrapSymbols]
    split <;> rfl

theorem wrap_zero_head (syms : List Char) (hn : '\n' ∉ syms) :
    (wrapSymbols 0 syms).head? ≠ some '\n' := by
  cases syms with
  | nil => simp [wrapSymbols]
  | cons s rest =>
    rw [wrap_head _ _ (by simp)]
    intro e
    have : s = '\n' := by simpa using e
    exact hn (by simp [this])

theorem wrap_no_double : ∀ (syms : List Char) (c : Nat), '\n' ∉ syms →
    ¬ (['\n', '\n'] <:+: wrapSymbols c syms) := by
  intro syms
  induction syms with
  | nil =>
    intro c _ h
    have hl := h.length_le
    rw [wrapSymbols] at hl
    split at hl <;> simp at hl
  | cons s rest ih =>
    intro c hn
    have hs : ¬ '\n' = s := fun e => hn (by rw [e]; exact List.mem_cons_self _ _)
    have hr : '\n' ∉ rest := fun e => hn (by simp [e])
    rw [wrapSymbols]
    split
    · intro h
      rcases List.infix_cons_iff.1 h with h | h
      · exact hs (List.cons_prefix_cons.1 h).1
      · rcases List.infix_cons_iff.1 h with h | h
        · have h2 := (List.cons_prefix_cons.1 h).2
          have h3 := wrap_zero_head rest hr
          cases hw : wrapSymbols 0 rest with
          | nil => rw [hw] at h2; simp at h2
          | cons a t =>
            rw [hw] at h2 h3
            have := (List.cons_prefix_cons.1 h2).1
            exact h3 (by rw [List.head?_cons, ← this])
        · exact ih 0 hr h
    · intro h
      rcases List.infix_cons_iff.1 h with h | h
      · exact hs (List.cons_prefix_cons.1 h).1
      · exact ih (c + 1) hr h

theorem wrap_last : ∀ (syms : List Char) (c : Nat), (c ≠ 0 ∨ syms ≠ []) →
    (wrapSymbols c syms).getLast? = some '\n' := by
  intro syms
  induction syms with
  | nil =>
    intro c h
    have hc : c ≠ 0 := by
      rcases h with h | h
      · exact h
      · exact absurd rfl h
    rw [wrapSymbols, if_pos hc]; rfl
  | cons s rest ih =>
    intro c _
    rw [wrapSymbols]
    split
    · by_cases hr : rest = []
      · subst hr; rfl
      · have i0 := ih 0 (Or.inr hr)
        cases hw : wrapSymbols 0 rest with
        | nil => rw [hw] at i0; exact absurd i0 (by simp)
        | cons a t =>
          rw [hw] at i0
          rw [List.getLast?_cons_cons, List.getLast?_cons_cons]
          exact i0
    · have i1 := ih (c + 1) (Or.inl (by omega))
      cases hw : wrapSymbols (c + 1) rest with
      | nil => rw [hw] at i1; exact absurd i1 (by simp)
      | cons a t =>
        rw [hw] at i1
        rw [List.getLast?_cons_cons]
        exact i1

theorem flatten_lines_eq_intercalate (a : Char) : ∀ lines : List (List Char), lines ≠ [] →
    (lines.map (fun l => l ++ [a])).flatten = [a].intercalate (lines ++ [[]]) := by
  intro lines
  induction lines with
  | nil => intro h; exact absurd rfl h
  | cons l ls ih =>
    intro _
    cases ls with
    | nil => simp [List.intercalate, List.intersperse]
    | cons l2 ls2 =>
      have i := ih (by simp)
      rw [List.map_cons, List.flatten_cons, i]
      simp [List.intercalate, List.intersperse]

theorem symbolStream_ne_nil (x : List Nat) (h : x ≠ []) : symbolStream x ≠ [] := by
  intro e
  have hl := symbolStream_length x
  rw [e] at hl
  have : 0 < x.length := List.length_pos.2 h
  simp only [List.length_nil] at hl
  omega

/-- C5: for every byte sequence, no line of the base64 output (a piece between
newlines, or before the first one) is longer than 76 characters, and the output
ends with a newline exactly when at least one symbol was emitted, which is
exactly when the input is non-empty. -/
theorem line_wrap (x : List Nat) (hx : Bytes x) :
    ∃ out, encode x = some out ∧
      (∀ l ∈ out.splitOn '\n', l.length ≤ 76) ∧
      (out.getLast? = some '\n' ↔ symbolsOf out ≠ []) ∧
      (symbolsOf out ≠ [] ↔ x ≠ []) := by
  refine ⟨wrapSymbols 0 (symbolStream x), encode_eq x, ?_, ?_, ?_⟩
  · obtain ⟨lines, e1, e2, e3, _⟩ := wrap_lines _ (symbolStream x) (le_refl _)
    have hn := newline_not_mem_symbolStream x hx
    by_cases hl : lines = []
    · subst hl
      rw [e1]
      intro l h
      have : l = [] := by simpa using h
      subst this
      simp
    · rw [e1, flatten_lines_eq_intercalate '\n' lines hl, List.splitOn_intercalate _ '\n' ?_
        (by simp)]
      · intro l h
        rcases List.mem_append.1 h with h | h
        · exact (e3 l h).2
        · have : l = [] := by simpa using h
          subst this
          simp
      · intro l h
        rcases List.mem_append.1 h with h | h
        · intro hm
          exact hn (e2 ▸ List.mem_flatten.2 ⟨l, h, hm⟩)
        · have : l = [] := by simpa using h
          subst this
          simp
  · rw [symbolsOf_encode x hx]
    constructor
    · intro h e
      rw [e] at h
      exact absurd h (by simp [wrapSymbols])
    · intro h
      exact wrap_last _ 0 (Or.inr h)
  · rw [symbolsOf_encode x hx]
    constructor
    · intro h e
      subst e
      exact h rfl
    · exact symbolStream_ne_nil x

/-- Witness of C5 at the three bytes of "foo". -/
theorem line_wrap_witness :
    ∃ out, encode [0x66, 0x6F, 0x6F] = some out ∧
      (∀ l ∈ out.splitOn '\n', l.length ≤ 76) ∧
      (out.getLast? = some '\n' ↔ symbolsOf out ≠ []) ∧
      (symbolsOf out ≠ [] ↔ [0x66, 0x6F, 0x6F] ≠ []) :=
  line_wrap [0x66, 0x6F, 0x6F] (by decide)

/-- C6: for every byte sequence the base64 output is its symbol stream cut
into consecutive lines, each followed by exactly one newline; every line but
the last has exactly 76 symbols and the last has between 1 and 76; there is
no empty line (no leading newline, no two consecutive newlines); the number
of newlines is the number of lines, so for an input of a positive multiple
of 57 bytes the newline of the last wrap boundary is the only trailing one.
The output is also exactly the specification's symbol-by-symbol wrapping
(steps 8 and 9) of its own symbol stream. -/
theorem line_structure (x : List Nat) (hx : Bytes x) :
    ∃ (out : List Char) (lines : List (List Char)), encode x = some out ∧
      out = (lines.map (fun l => l ++ ['\n'])).flatten ∧
      lines.flatten = symbolsOf out ∧
      (∀ l ∈ lines, '\n' ∉ l) ∧
      (∀ l ∈ lines.dropLast, l.length = 76) ∧
      (∀ l ∈ lines, 1 ≤ l.length ∧ l.length ≤ 76) ∧
      out.head? ≠ some '\n' ∧
      ¬ (['\n', '\n'] <:+: out) ∧
      out.count '\n' = ((symbolsOf out).length + 75) / 76 ∧
      (0 < x.length → x.length % 57 = 0 →
        (symbolsOf out).length = 76 * (x.length / 57) ∧ out.count '\n' = x.length / 57) ∧
      out = wrapSymbols 0 (symbolsOf out) := by
  obtain ⟨lines, e1, e2, e3, e4⟩ := wrap_lines _ (symbolStream x) (le_refl _)
  have hn := newline_not_mem_symbolStream x hx
  have hc := wrap_count_newline (symbolStream x) 0 (by decide) hn
  have hl := symbolStream_length x
  refine ⟨wrapSymbols 0 (symbolStream x), lines, encode_eq x, e1, ?_, ?_, e4, e3,
    wrap_zero_head _ hn, wrap_no_double _ 0 hn, ?_, ?_, ?_⟩
  · rw [symbolsOf_encode x hx, e2]
  · intro l h hm
    exact hn (e2 ▸ List.mem_flatten.2 ⟨l, h, hm⟩)
  · rw [symbolsOf_encode x hx, hc]
    simp
  · intro h0 h57
    rw [symbolsOf_encode x hx, hc, hl]
    constructor <;> omega
  · rw [symbolsOf_encode x hx]

/-- Witness of C6 at the two bytes of "fo". -/
theorem line_structure_witness :
    ∃ (out : List Char) (lines : List (List Char)), encode [0x66, 0x6F] = some out ∧
      out = (lines.map (fun l => l ++ ['\n'])).flatten ∧
      lines.flatten = symbolsOf out ∧
      (∀ l ∈ lines, '\n' ∉ l) ∧
      (∀ l ∈ lines.dropLast, l.length = 76) ∧
      (∀ l ∈ lines, 1 ≤ l.length ∧ l.length ≤ 76) ∧
      out.head? ≠ some '\n' ∧
      ¬ (['\n', '\n'] <:+: out) ∧
      out.count '\n' = ((symbolsOf out).length + 75) / 76 ∧
      (0 < [0x66, 0x6F].length → [0x66, 0x6F].length % 57 = 0 →
        (symbolsOf out).length = 76 * ([0x66, 0x6F].length / 57) ∧
          out.count '\n' = [0x66, 0x6F].length / 57) ∧
      out = wrapSymbols 0 (symbolsOf out) :=
  line_structure [0x66, 0x6F] (by decide)

end Base64

/-! ## The encoders of encode.c -/

theorem symbolsOf_append_newline (l : List Char) (h : '\n' ∉ l) :
    symbolsOf (l ++ ['\n']) = l := by
  unfold symbolsOf
  rw [List.filter_append, List.filter_eq_self.2]
  · simp
  · intro a ha
    have : a ≠ '\n' := fun e => h (e ▸ ha)
    simpa using this

theorem toUnsigned_charValue (s : Bool) (b : Nat) (hb : b < 256) :
    toUnsigned 8 (charValue s b) = b := by
  unfold toUnsigned charValue
  split <;> omega

namespace Encode

set_option maxRecDepth 100000 in
theorem base2bits_eq : ∀ b, b < 256 → base2bits CHAR_BIT b = (bits8 b).map binChar := by
  decide

theorem binChar_props : ∀ i, i < 2 → binChar i ≠ '\n' ∧ base2a.indexOf (binChar i) = i := by
  decide

theorem bits8_lt (b i : Nat) (hi : i ∈ bits8 b) : i < 2 := by
  unfold bits8 at hi
  simp only [List.mem_cons, List.mem_singleton, List.not_mem_nil, or_false] at hi
  omega

theorem base2loop_eq (s : Bool) : ∀ x, Bytes x →
    base2loop s x = x.flatMap (fun b => (bits8 b).map binChar) := by
  intro x
  induction x with
  | nil => intro _; rfl
  | cons b rest ih =>
    intro hx
    have hb : b < 256 := hx b (by simp)
    have hr : Bytes rest := fun y hy => hx y (by simp [hy])
    rw [base2loop, List.flatMap_cons, ih hr]
    simp only [toUnsigned_charValue s b hb, base2bits_eq b hb]

theorem newline_not_mem_digits : ∀ x : List Nat,
    '\n' ∉ x.flatMap (fun b => (bits8 b).map binChar) := by
  intro x h
  obtain ⟨b, _, hb⟩ := List.mem_flatMap.1 h
  obtain ⟨i, hi, e⟩ := List.mem_map.1 hb
  exact (binChar_props i (bits8_lt b i hi)).1 e

theorem byte_of_bits8 (b : Nat) (hb : b < 256) :
    128 * (b / 128 % 2) + 64 * (b / 64 % 2) + 32 * (b / 32 % 2) + 16 * (b / 16 % 2) +
      8 * (b / 8 % 2) + 4 * (b / 4 % 2) + 2 * (b / 2 % 2) + b % 2 = b := by
  omega

theorem base2decode_digits : ∀ x, Bytes x →
    base2decode (x.flatMap (fun b => (bits8 b).map binChar)) = x := by
  intro x
  induction x with
  | nil => intro _; rfl
  | cons b rest ih =>
    intro hx
    have hb : b < 256 := hx b (by simp)
    have hr : Bytes rest := fun y hy => hx y (by simp [hy])
    have ih' := ih hr
    unfold base2decode at ih' ⊢
    have e : ((bits8 b).map binChar).map (fun c => base2a.indexOf c) = bits8 b := by
      rw [List.map_map]
      conv => rhs; rw [← List.map_id (bits8 b)]
      apply List.map_congr_left
      intro i hi
      exact (binChar_props i (bits8_lt b i hi)).2
    rw [List.flatMap_cons, List.map_append, e]
    unfold bits8
    simp only [List.cons_append, List.nil_append]
    rw [Base64.cutBytes_cons8, byte_of_bits8 b hb]
    exact congrArg _ ih'

theorem base2_symbols (s : Bool) (x : List Nat) (hx : Bytes x) :
    base2encode s x = x.flatMap (fun b => (bits8 b).map binChar) ++ ['\n'] ∧
    symbolsOf (base2encode s x) = x.flatMap (fun b => (bits8 b).map binChar) := by
  have e : base2encode s x = x.flatMap (fun b => (bits8 b).map binChar) ++ ['\n'] := by
    unfold base2encode
    rw [base2loop_eq s x hx]
  exact ⟨e, by rw [e, symbolsOf_append_newline _ (newline_not_mem_digits x)]⟩

/-- C7: `base16encode` writes "64" (not "66") for the byte 0x66 and "646464"
(not "666f6f") for the bytes of "foo": the low nibble is masked with
`NIBBLE_BIT` (4) instead of 0xf. -/
theorem base16encode_foo :
    (∀ s, base16encode s [0x66] = "64\n".toList) ∧
    (∀ s, base16encode s [0x66, 0x6F, 0x6F] = "646464\n".toList) := by
  decide

/-- C8: `base16encode` is not injective, so no decoding reconstructs the
input: the bytes 0x66 and 0x67 are written alike, and decoding the symbols
written for 0x67 gives 0x64. -/
theorem base16encode_not_injective :
    (∀ s, base16encode s [0x66] = base16encode s [0x67]) ∧
    (∀ s, base16decode (symbolsOf (base16encode s [0x67])) = [0x64]) := by
  decide

/-- C9: for every byte sequence (all 256 byte values, whether plain `char` is
signed or not) `base2encode` writes, byte after byte, the 8 binary digits
most significant first, then a newline; 0x01 gives "00000001"; and decoding
the symbols reconstructs the input. -/
theorem base2_roundtrip (s : Bool) (x : List Nat) (hx : Bytes x) :
    base2encode s x = x.flatMap (fun b => (bits8 b).map binChar) ++ ['\n'] ∧
    symbolsOf (base2encode s x) = x.flatMap (fun b => (bits8 b).map binChar) ∧
    base2decode (symbolsOf (base2encode s x)) = x ∧
    base2encode s [0x01] = "00000001\n".toList := by
  obtain ⟨e, e2⟩ := base2_symbols s x hx
  refine ⟨e, e2, ?_, ?_⟩
  · rw [e2, base2decode_digits x hx]
  · cases s <;> decide

/-- Witness of C9 at the bytes 0x81, 0x01 with signed `char`. -/
theorem base2_roundtrip_witness :
    base2encode true [0x81, 0x01] =
      [0x81, 0x01].flatMap (fun b => (bits8 b).map binChar) ++ ['\n'] ∧
    symbolsOf (base2encode true [0x81, 0x01]) =
      [0x81, 0x01].flatMap (fun b => (bits8 b).map binChar) ∧
    base2decode (symbolsOf (base2encode true [0x81, 0x01])) = [0x81, 0x01] ∧
    base2encode true [0x01] = "00000001\n".toList :=
  base2_roundtrip true [0x81, 0x01] (by decide)

end Encode

namespace Encode

set_option maxRecDepth 100000 in
theorem base16byte_props : ∀ s, ∀ b, b < 256 →
    '\n' ∉ base16byte s b ∧ (base16byte s b).length = 2 := by
  decide

theorem base16loop_props (s : Bool) : ∀ x, Bytes x →
    '\n' ∉ base16loop s x ∧ (base16loop s x).length = 2 * x.length := by
  intro x
  induction x with
  | nil => intro _; exact ⟨by simp [base16loop], rfl⟩
  | cons b rest ih =>
    intro hx
    have hb : b < 256 := hx b (by simp)
    have hr : Bytes rest := fun y hy => hx y (by simp [hy])
    obtain ⟨i1, i2⟩ := ih hr
    obtain ⟨p1, p2⟩ := base16byte_props s b hb
    rw [base16loop]
    constructor
    · intro h
      rcases List.mem_append.1 h with h | h
      · exact p1 h
      · exact i1 h
    · rw [List.length_append, p2, i2, List.length_cons]
      omega

theorem digits_length : ∀ x : List Nat,
    (x.flatMap (fun b => (bits8 b).map binChar)).length = 8 * x.length := by
  intro x
  induction x with
  | nil => rfl
  | cons b rest ih =>
    rw [List.flatMap_cons, List.length_append, ih, List.length_cons]
    simp only [bits8, List.map_cons, List.map_nil, List.length_cons, List.length_nil]
    omega

end Encode

/-- C10: for every input of `n` bytes the number of non-newline characters
written is `ceil(8n/1) = 8n` by `base2encode`, `ceil(8n/4) = 2n` by
`base16encode`, and for base64 `ceil(24/6) = 4` per chunk, `4 * ceil(n/3)` in
total, pad characters included. -/
theorem symbol_counts (s : Bool) (x : List Nat) (hx : Bytes x) :
    (symbolsOf (Encode.base2encode s x)).length = ceilDiv (8 * x.length) 1 ∧
    ceilDiv (8 * x.length) 1 = 8 * x.length ∧
    (symbolsOf (Encode.base16encode s x)).length = ceilDiv (8 * x.length) 4 ∧
    ceilDiv (8 * x.length) 4 = 2 * x.length ∧
    (∀ b0 b1 b2 nr, (Base64.encodeChunk b0 b1 b2 nr).length = ceilDiv 24 6) ∧
    ceilDiv 24 6 = 4 ∧
    ∃ out, Base64.encode x = some out ∧
      (symbolsOf out).length = 4 * ceilDiv x.length 3 := by
  have c1 : ceilDiv (8 * x.length) 1 = 8 * x.length := by
    unfold ceilDiv; omega
  have c4 : ceilDiv (8 * x.length) 4 = 2 * x.length := by
    unfold ceilDiv; omega
  have c3 : ceilDiv x.length 3 = (x.length + 2) / 3 := by
    unfold ceilDiv; rfl
  obtain ⟨_, e2⟩ := Encode.base2_symbols s x hx
  obtain ⟨n16, l16⟩ := Encode.base16loop_props s x hx
  refine ⟨?_, c1, ?_, c4, fun _ _ _ _ => rfl, rfl, _, Base64.encode_eq x, ?_⟩
  · rw [e2, c1, Encode.digits_length]
  · unfold Encode.base16encode
    rw [symbolsOf_append_newline _ n16, l16, c4]
  · rw [Base64.symbolsOf_encode x hx, Base64.symbolStream_length, c3]

/-- Witness of C10 at the bytes of "foo" with signed `char`. -/
theorem symbol_counts_witness :
    (symbolsOf (Encode.base2encode true [0x66, 0x6F, 0x6F])).length =
      ceilDiv (8 * [0x66, 0x6F, 0x6F].length) 1 ∧
    ceilDiv (8 * [0x66, 0x6F, 0x6F].length) 1 = 8 * [0x66, 0x6F, 0x6F].length ∧
    (symbolsOf (Encode.base16encode true [0x66, 0x6F, 0x6F])).length =
      ceilDiv (8 * [0x66, 0x6F, 0x6F].length) 4 ∧
    ceilDiv (8 * [0x66, 0x6F, 0x6F].length) 4 = 2 * [0x66, 0x6F, 0x6F].length ∧
    (∀ b0 b1 b2 nr, (Base64.encodeChunk b0 b1 b2 nr).length = ceilDiv 24 6) ∧
    ceilDiv 24 6 = 4 ∧
    ∃ out, Base64.encode [0x66, 0x6F, 0x6F] = some out ∧
      (symbolsOf out).length = 4 * ceilDiv [0x66, 0x6F, 0x6F].length 3 :=
  symbol_counts true [0x66, 0x6F, 0x6F] (by decide)

namespace Encode

theorem base8loop_append (s : Bool) : ∀ pre chunk : List Nat, pre.length % 3 = 0 →
    base8loop s (pre ++ chunk) = base8loop s pre ++ base8loop s chunk := by
  intro pre
  induction pre using Base64.chunk3_induction with
  | h0 => intro chunk _; rfl
  | h1 a => intro chunk h; simp at h
  | h2 a b => intro chunk h; simp at h
  | h3 a b c rest ih =>
    intro chunk h
    have hr : rest.length % 3 = 0 := by
      simp only [List.length_cons] at h; omega
    have e := ih chunk hr
    simp only [List.cons_append, base8loop, List.append_assoc]
    exact congrArg _ e

theorem base8inner_pad (r : Nat) : ∀ (n j dword i : Nat), i < n →
    ((base8inner r n j dword)[i]? = some none ↔ (j + i) * 3 > r * 8) := by
  intro n
  induction n with
  | zero => intro j dword i h; omega
  | succ n ih =>
    intro j dword i h
    rw [base8inner]
    simp only [TRIBBLE_BIT, CHAR_BIT]
    by_cases hj : j * 3 > r * 8
    · rw [if_pos hj]
      cases i with
      | zero => simp [hj]
      | succ i =>
        rw [List.getElem?_cons_succ, ih (j + 1) dword i (by omega)]
        constructor <;> intro h' <;> omega
    · rw [if_neg hj]
      cases i with
      | zero => simp [hj]
      | succ i =>
        rw [List.getElem?_cons_succ, ih (j + 1) _ i (by omega)]
        constructor <;> intro h' <;> omega

theorem base8inner_length (r : Nat) : ∀ (n j dword : Nat),
    (base8inner r n j dword).length = n := by
  intro n
  induction n with
  | zero => intro j dword; rfl
  | succ n ih =>
    intro j dword
    rw [base8inner]
    split <;> simp [ih]

theorem base8inner_count (r : Nat) (hr1 : 1 ≤ r) (hr3 : r ≤ 3) (dword : Nat) :
    (base8inner r 8 0 dword).count none = ceilDiv 24 3 - ceilDiv (8 * r) 3 := by
  interval_cases r <;> simp [base8inner, TRIBBLE_BIT, CHAR_BIT, ceilDiv]

theorem base8loop_chunk (s : Bool) (chunk : List Nat) (h1 : 1 ≤ chunk.length)
    (h3 : chunk.length ≤ 3) :
    ∃ dword, base8loop s chunk = base8inner chunk.length 8 0 dword := by
  match chunk, h1, h3 with
  | [a], _, _ => exact ⟨_, rfl⟩
  | [a, b], _, _ => exact ⟨_, rfl⟩
  | [a, b, c], _, _ =>
    exact ⟨base8dword s a (some b) (some c), by simp [base8loop, CHAR_BIT, TRIBBLE_BIT]⟩
  | _ :: _ :: _ :: _ :: _, _, h => simp at h

/-- C11: for a final chunk of `r` bytes (1 ≤ r ≤ 3) `base8encode` produces 8
positions of which `ceil(24/3) - ceil(8r/3)` are pads (5, 2, 0 for
r = 1, 2, 3); the pads are exactly the positions `j` with `¬ (3*j < 8*r)`,
which are the positions selected by the code's test `j*3 > r*8`; and the
bytes {0,0,0}, {0,0}, {0} are written "00000000", "000000==", "000=====". -/
theorem base8_padding (s : Bool) (pre chunk : List Nat) (hpre : pre.length % 3 = 0)
    (h1 : 1 ≤ chunk.length) (h3 : chunk.length ≤ 3) :
    base8loop s (pre ++ chunk) = base8loop s pre ++ base8loop s chunk ∧
    (base8loop s chunk).length = 8 ∧
    (∀ j, j < 8 → ((base8loop s chunk)[j]? = some none ↔ ¬ (3 * j < 8 * chunk.length))) ∧
    (∀ j, j < 8 → ((base8loop s chunk)[j]? = some none ↔ j * 3 > chunk.length * 8)) ∧
    (base8loop s chunk).count none = ceilDiv 24 3 - ceilDiv (8 * chunk.length) 3 ∧
    (chunk.length = 1 → (base8loop s chunk).count none = 5) ∧
    (chunk.length = 2 → (base8loop s chunk).count none = 2) ∧
    (chunk.length = 3 → (base8loop s chunk).count none = 0) ∧
    base8encode s [0, 0, 0] = some "00000000\n".toList ∧
    base8encode s [0, 0] = some "000000==\n".toList ∧
    base8encode s [0] = some "000=====\n".toList := by
  obtain ⟨dword, e⟩ := base8loop_chunk s chunk h1 h3
  have hc := base8inner_count chunk.length h1 h3 dword
  refine ⟨base8loop_append s pre chunk hpre, ?_⟩
  rw [e]
  refine ⟨base8inner_length _ _ _ _, ?_, ?_, hc, ?_, ?_, ?_, ?_, ?_, ?_⟩
  · intro j hj
    rw [base8inner_pad _ 8 0 dword j hj]
    have h38 : 3 * j ≠ 8 * chunk.length := by omega
    constructor <;> intro h' <;> omega
  · intro j hj
    rw [base8inner_pad _ 8 0 dword j hj]
    constructor <;> intro h' <;> omega
  · intro h; rw [hc, h]; rfl
  · intro h; rw [hc, h]; rfl
  · intro h; rw [hc, h]; rfl
  · cases s <;> decide
  · cases s <;> decide
  · cases s <;> decide

/-- Witness of C11 at the final chunk {0x66, 0x6F} after the chunk "foo". -/
theorem base8_padding_witness :
    base8loop true ([0x66, 0x6F, 0x6F] ++ [0x66, 0x6F]) =
      base8loop true [0x66, 0x6F, 0x6F] ++ base8loop true [0x66, 0x6F] ∧
    (base8loop true [0x66, 0x6F]).length = 8 ∧
    (∀ j, j < 8 → ((base8loop true [0x66, 0x6F])[j]? = some none ↔
      ¬ (3 * j < 8 * [0x66, 0x6F].length))) ∧
    (∀ j, j < 8 → ((base8loop true [0x66, 0x6F])[j]? = some none ↔
      j * 3 > [0x66, 0x6F].length * 8)) ∧
    (base8loop true [0x66, 0x6F]).count none =
      ceilDiv 24 3 - ceilDiv (8 * [0x66, 0x6F].length) 3 ∧
    ([0x66, 0x6F].length = 1 → (base8loop true [0x66, 0x6F]).count none = 5) ∧
    ([0x66, 0x6F].length = 2 → (base8loop true [0x66, 0x6F]).count none = 2) ∧
    ([0x66, 0x6F].length = 3 → (base8loop true [0x66, 0x6F]).count none = 0) ∧
    base8encode true [0, 0, 0] = some "00000000\n".toList ∧
    base8encode true [0, 0] = some "000000==\n".toList ∧
    base8encode true [0] = some "000=====\n".toList :=
  base8_padding true [0x66, 0x6F, 0x6F] [0x66, 0x6F] (by decide) (by decide) (by decide)

end Encode

namespace Encode

/-- C12: with a signed plain `char`, `base8encode` widens the byte 0x80 to an
`unsigned long` with sign extension, so the first index it computes is -4
(outside [0, 8)) and the read of `base8a` is out of bounds; with the bytes
{0x10, 0x20, 0x80} the first index is -1 and the set high bits overwrite the
digits of the first two bytes. -/
theorem base8_signed_index :
    base8loop true [0x80] = [some (-4), some 0, some 0, none, none, none, none, none] ∧
    base8encode true [0x80] = none ∧
    base8loop true [0x10, 0x20, 0x80] =
      [some (-1), some 7, some 7, some 7, some 7, some 6, some 0, some 0] ∧
    base8encode false [0x80] = some "400=====\n".toList := by
  decide

theorem toUnsigned64_charValue (s : Bool) (b : Nat) (hb : b < 128) :
    toUnsigned 64 (charValue s b) = b := by
  unfold toUnsigned charValue
  have h : ¬ (s = true ∧ 128 ≤ b) := by omega
  rw [if_neg h]
  omega

theorem base8dword_eq (s : Bool) (a b c : Nat) (ha : a < 128) (hb : b < 128)
    (hc : c < 128) :
    base8dword s a (some b) (some c) = a * 65536 + b * 256 + c := by
  unfold base8dword
  simp only [toUnsigned64_charValue s a ha, toUnsigned64_charValue s b hb,
    toUnsigned64_charValue s c hc]
  rw [shl_or_byte a b (by omega) (by omega), shl_or_byte _ c (by omega) (by omega)]
  ring

theorem and_0xffffff (x : Nat) : x &&& 0xffffff = x % 2 ^ 24 :=
  Nat.and_pow_two_sub_one_eq_mod x 24

theorem base8inner_eq : ∀ (n j p : Nat), p < 2 ^ 24 → j + n ≤ 8 →
    base8inner 3 n j p = (specExtractK 3 24 n p).map (fun (i : Nat) => some (Int.ofNat i)) := by
  intro n
  induction n with
  | zero => intro j p _ _; rfl
  | succ n ih =>
    intro j p hp hj
    have hpad : ¬ j * TRIBBLE_BIT > 3 * CHAR_BIT := by
      simp only [TRIBBLE_BIT, CHAR_BIT]; omega
    have hidx : toSigned 32 (p >>> (3 * CHAR_BIT - TRIBBLE_BIT)) = Int.ofNat (p / 2 ^ (24 - 3)) := by
      simp only [TRIBBLE_BIT, CHAR_BIT, Nat.shiftRight_eq_div_pow]
      unfold toSigned
      have h8 : p / 2 ^ (3 * 8 - 3) < 8 := by omega
      have e : p / 2 ^ (3 * 8 - 3) % 2 ^ 32 = p / 2 ^ (24 - 3) := by omega
      rw [e, if_pos (by omega)]
      rfl
    have hdw : ((p <<< TRIBBLE_BIT) % 2 ^ 64) &&& 0xffffff = (p * 2 ^ 3) % 2 ^ 24 := by
      rw [and_0xffffff, TRIBBLE_BIT, Nat.shiftLeft_eq]
      omega
    rw [base8inner, if_neg hpad, specExtractK, List.map_cons]
    simp only [hidx, hdw]
    rw [ih (j + 1) _ (Nat.mod_lt _ (by decide)) (by omega)]

theorem specExtractK_octal (p : Nat) (hp : p < 2 ^ 24) :
    specExtractK 3 24 8 p = octalDigits p := by
  simp only [specExtractK, octalDigits, List.cons.injEq, and_true]
  refine ⟨?_, ?_, ?_, ?_, ?_, ?_, ?_, ?_⟩ <;> omega

theorem base8put_digit : ∀ i, i < 8 → base8put (some (Int.ofNat i)) = some (octChar i) := by
  decide

theorem octalDigits_lt (p i : Nat) (hi : i ∈ octalDigits p) : i < 8 := by
  unfold octalDigits at hi
  simp only [List.mem_cons, List.mem_singleton, List.not_mem_nil, or_false] at hi
  omega

theorem base8print_digits : ∀ (l : List Nat), (∀ i ∈ l, i < 8) →
    ∀ (rest : List (Option Int)) (cs : List Char), base8print rest = some cs →
    base8print (l.map (fun (i : Nat) => some (Int.ofNat i)) ++ rest) =
      some (l.map octChar ++ cs) := by
  intro l
  induction l with
  | nil => intro _ rest cs h; exact h
  | cons i l ih =>
    intro hl rest cs h
    have hi : i < 8 := hl i (by simp)
    have ht := ih (fun k hk => hl k (by simp [hk])) rest cs h
    rw [List.map_cons, List.cons_append, base8print, base8put_digit i hi, ht]
    rfl

theorem chunks3_lt : ∀ x : List Nat, (∀ b ∈ x, b < 128) → ∀ p ∈ chunks3 x, p < 2 ^ 24 := by
  intro x
  induction x using Base64.chunk3_induction with
  | h0 => intro _ p hp; simp [chunks3] at hp
  | h1 a => intro _ p hp; simp [chunks3] at hp
  | h2 a b => intro _ p hp; simp [chunks3] at hp
  | h3 a b c rest ih =>
    intro hx p hp
    have ha : a < 128 := hx a (by simp)
    have hb : b < 128 := hx b (by simp)
    have hc : c < 128 := hx c (by simp)
    rw [chunks3] at hp
    rcases List.mem_cons.1 hp with hp | hp
    · omega
    · exact ih (fun y hy => hx y (by simp [hy])) p hp

theorem base8loop_octal (s : Bool) : ∀ x : List Nat, x.length % 3 = 0 →
    (∀ b ∈ x, b < 128) →
    base8loop s x = (chunks3 x).flatMap
      (fun p => (specExtractK 3 24 8 p).map (fun (i : Nat) => some (Int.ofNat i))) := by
  intro x
  induction x using Base64.chunk3_induction with
  | h0 => intro _ _; rfl
  | h1 a => intro h _; simp at h
  | h2 a b => intro h _; simp at h
  | h3 a b c rest ih =>
    intro h hx
    have ha : a < 128 := hx a (by simp)
    have hb : b < 128 := hx b (by simp)
    have hc : c < 128 := hx c (by simp)
    have hr : rest.length % 3 = 0 := by
      simp only [List.length_cons] at h; omega
    have i := ih hr (fun y hy => hx y (by simp [hy]))
    have e8 : 3 * CHAR_BIT / TRIBBLE_BIT = 8 := rfl
    rw [base8loop, chunks3, List.flatMap_cons, base8dword_eq s a b c ha hb hc, e8,
      base8inner_eq 8 0 _ (by omega) (by omega), i]

theorem base8print_octal : ∀ ps : List Nat, (∀ p ∈ ps, p < 2 ^ 24) →
    base8print (ps.flatMap
      (fun p => (specExtractK 3 24 8 p).map (fun (i : Nat) => some (Int.ofNat i)))) =
    some (ps.flatMap (fun p => (octalDigits p).map octChar) ++ ['\n']) := by
  intro ps
  induction ps with
  | nil => intro _; rfl
  | cons p ps ih =>
    intro h
    have hp : p < 2 ^ 24 := h p (by simp)
    have i := ih (fun q hq => h q (by simp [hq]))
    rw [List.flatMap_cons, List.flatMap_cons, specExtractK_octal p hp,
      base8print_digits _ (octalDigits_lt p) _ _ i, List.append_assoc]

theorem pad_not_mem_octal (ps : List Nat) :
    '=' ∉ ps.flatMap (fun p => (octalDigits p).map octChar) := by
  intro h
  obtain ⟨p, _, hp⟩ := List.mem_flatMap.1 h
  obtain ⟨i, hi, e⟩ := List.mem_map.1 hp
  have h8 := octalDigits_lt p i hi
  have : ∀ k, k < 8 → octChar k ≠ '=' := by decide
  exact this i h8 e

/-- C13: for an input whose length is a multiple of 3 and whose bytes are all
below 0x80, `base8encode` writes for each 3-byte chunk the 8 octal digits of
`b0*65536 + b1*256 + b2`, most significant first, and no pad; the indices it
computes are those of the generic top-3-bits-then-shift-left extraction on 24
bits; the bytes of "foo" are written "31467557". -/
theorem base8_octal (s : Bool) (x : List Nat) (h3 : x.length % 3 = 0)
    (hx : ∀ b ∈ x, b < 128) :
    base8encode s x =
      some ((chunks3 x).flatMap (fun p => (octalDigits p).map octChar) ++ ['\n']) ∧
    base8loop s x = (chunks3 x).flatMap
      (fun p => (specExtractK 3 24 8 p).map (fun (i : Nat) => some (Int.ofNat i))) ∧
    (∀ p ∈ chunks3 x, specExtractK 3 24 8 p = octalDigits p) ∧
    none ∉ base8loop s x ∧
    '=' ∉ (chunks3 x).flatMap (fun p => (octalDigits p).map octChar) ∧
    8 * x.length = 3 * ((chunks3 x).flatMap (fun p => (octalDigits p).map octChar)).length ∧
    base8encode s [0x66, 0x6F, 0x6F] = some "31467557\n".toList := by
  have hl := base8loop_octal s x h3 hx
  have hp := chunks3_lt x hx
  refine ⟨?_, hl, fun p h => specExtractK_octal p (hp p h), ?_, pad_not_mem_octal _, ?_, ?_⟩
  · unfold base8encode
    rw [hl, base8print_octal _ hp]
  · rw [hl]
    intro h
    obtain ⟨p, _, hp'⟩ := List.mem_flatMap.1 h
    obtain ⟨i, _, e⟩ := List.mem_map.1 hp'
    exact absurd e (by simp)
  · clear hl hp
    induction x using Base64.chunk3_induction with
    | h0 => rfl
    | h1 a => simp at h3
    | h2 a b => simp at h3
    | h3 a b c rest ih =>
      have hr : rest.length % 3 = 0 := by
        simp only [List.length_cons] at h3; omega
      have i := ih hr (fun y hy => hx y (by simp [hy]))
      rw [chunks3, List.flatMap_cons, List.length_append]
      simp only [List.length_cons, octalDigits, List.map_cons, List.map_nil,
        List.length_nil] at i ⊢
      omega
  · cases s <;> decide

/-- Witness of C13 at the six bytes "foofoo" with signed `char`. -/
theorem base8_octal_witness :
    base8encode true [0x66, 0x6F, 0x6F, 0x66, 0x6F, 0x6F] =
      some ((chunks3 [0x66, 0x6F, 0x6F, 0x66, 0x6F, 0x6F]).flatMap
        (fun p => (octalDigits p).map octChar) ++ ['\n']) ∧
    base8loop true [0x66, 0x6F, 0x6F, 0x66, 0x6F, 0x6F] =
      (chunks3 [0x66, 0x6F, 0x6F, 0x66, 0x6F, 0x6F]).flatMap
        (fun p => (specExtractK 3 24 8 p).map (fun (i : Nat) => some (Int.ofNat i))) ∧
    (∀ p ∈ chunks3 [0x66, 0x6F, 0x6F, 0x66, 0x6F, 0x6F],
      specExtractK 3 24 8 p = octalDigits p) ∧
    none ∉ base8loop true [0x66, 0x6F, 0x6F, 0x66, 0x6F, 0x6F] ∧
    '=' ∉ (chunks3 [0x66, 0x6F, 0x6F, 0x66, 0x6F, 0x6F]).flatMap
      (fun p => (octalDigits p).map octChar) ∧
    8 * [0x66, 0x6F, 0x6F, 0x66, 0x6F, 0x6F].length =
      3 * ((chunks3 [0x66, 0x6F, 0x6F, 0x66, 0x6F, 0x6F]).flatMap
        (fun p => (octalDigits p).map octChar)).length ∧
    base8encode true [0x66, 0x6F, 0x6F] = some "31467557\n".toList :=
  base8_octal true [0x66, 0x6F, 0x6F, 0x66, 0x6F, 0x6F] (by decide) (by decide)

end Encode

/-- C14: every alphabet table has exactly `2^k` pairwise distinct symbols:
`b64a` has 64 and is, in index order, 'A'..'Z', 'a'..'z', '0'..'9', '+', '/';
`base16a` is the 16 characters "0123456789abcdef"; `base8a` is "01234567";
`base2a` is "01"; and the pad character '=' is in none of them. -/
theorem alphabet_tables :
    (Base64.b64a.length = 2 ^ 6 ∧ Base64.b64a.Nodup ∧
      Base64.b64a =
        (List.range 26).map (fun i => Char.ofNat (65 + i)) ++
        (List.range 26).map (fun i => Char.ofNat (97 + i)) ++
        (List.range 10).map (fun i => Char.ofNat (48 + i)) ++ ['+', '/']) ∧
    (Encode.base16a.length = 2 ^ 4 ∧ Encode.base16a.Nodup ∧
      Encode.base16a = "0123456789abcdef".toList) ∧
    (Encode.base8a.length = 2 ^ 3 ∧ Encode.base8a.Nodup ∧
      Encode.base8a = "01234567".toList) ∧
    (Encode.base2a.length = 2 ^ 1 ∧ Encode.base2a.Nodup ∧ Encode.base2a = "01".toList) ∧
    Encode.pad_char = '=' ∧
    '=' ∉ Base64.b64a ∧ '=' ∉ Encode.base16a ∧ '=' ∉ Encode.base8a ∧ '=' ∉ Encode.base2a := by
  decide

namespace Base64

/-- C15: the source selection of `main`. With no argument it runs the loop on
standard input; with one argument `f` it runs it on the file `f` reopened as
`stdin` (or fails naming `f`); with more than one it exits with status 1
before any read or write. The argument "-" is not treated apart: the file
named "-" is opened, standard input is not read. -/
theorem main_source_selection :
    (∀ prog stdin fopen ok,
      main [prog] stdin fopen ok =
        ioLoop ok "-" stdin 0 { written := [], calls := 0, failed := false }) ∧
    (∀ prog f stdin fopen ok,
      main [prog, f] stdin fopen ok =
        match fopen f with
        | none => ({ written := [], calls := 0, failed := false }, Outcome.exited 1 (some f))
        | some reads => ioLoop ok f reads 0 { written := [], calls := 0, failed := false }) ∧
    (∀ argv stdin fopen ok, argv.length > 2 →
      main argv stdin fopen ok =
        ({ written := [], calls := 0, failed := false }, Outcome.exited 1 none)) ∧
    main ["base64", "-"] [{ bytes := [0x66], error := false }] (fun _ => none)
        (fun _ => true) =
      ({ written := [], calls := 0, failed := false }, Outcome.exited 1 (some "-")) ∧
    main ["base64"] [{ bytes := [0x66], error := false }] (fun _ => none) (fun _ => true) =
      ({ written := "Zg==\n".toList, calls := 2, failed := false }, Outcome.exited 0 none) := by
  refine ⟨?_, ?_, ?_, ?_, ?_⟩
  · intro prog stdin fopen ok; rfl
  · intro prog f stdin fopen ok; rfl
  · intro argv stdin fopen ok h
    unfold main
    simp only [h, if_true]
  · decide
  · decide

theorem ioLoop_status_eq (fn : String) : ∀ (reads : List ReadResult) (ok ok2 : Nat → Bool)
    (lc : Nat) (st st2 : Sink),
    (ioLoop ok fn reads lc st).2 = (ioLoop ok2 fn reads lc st2).2 := by
  intro reads
  induction reads with
  | nil => intro ok ok2 lc st st2; rfl
  | cons r rest ih =>
    intro ok ok2 lc st st2
    simp only [ioLoop]
    split
    · rfl
    · split
      · rfl
      · split
        · split
          · split
            · rfl
            · exact ih _ _ _ _ _
          · rfl
        · split
          · rfl
          · exact ih _ _ _ _ _

/-- C17: the results of `fwrite`, `fflush` and `putchar` are never looked at,
so the exit status does not depend on the failures of `stdout`: with every
write failing on the input "f" the program still exits with status 0, and no
error message names `stdout`. -/
theorem write_failure_ignored :
    main ["base64"] [{ bytes := [0x66], error := false }] (fun _ => none) (fun _ => false) =
      ({ written := [], calls := 2, failed := true }, Outcome.exited 0 none) ∧
    (∀ fn reads ok ok2 lc st st2,
      (ioLoop ok fn reads lc st).2 = (ioLoop ok2 fn reads lc st2).2) ∧
    (∀ argv stdin fopen ok ok2,
      (main argv stdin fopen ok).2 = (main argv stdin fopen ok2).2) := by
  refine ⟨by decide, fun fn reads ok ok2 lc st st2 => ioLoop_status_eq fn reads ok ok2 lc st st2,
    ?_⟩
  intro argv stdin fopen ok ok2
  unfold main
  simp only []
  split
  · rfl
  · split
    · split
      · rfl
      · exact ioLoop_status_eq _ _ _ _ _ _ _
    · exact ioLoop_status_eq _ _ _ _ _ _ _

end Base64

namespace Base64

theorem put_ok (ok : Nat → Bool) (hok : ∀ k, ok k = true) (st : Sink) (data : List Char) :
    (Sink.put ok st data).1 =
      { written := st.written ++ data, calls := st.calls + 1, failed := st.failed } := by
  unfold Sink.put
  rw [if_pos (hok _)]

theorem wrapSymbols_nil (c : Nat) : wrapSymbols c [] = finish c := rfl

theorem ioLoop_full_reads (ok : Nat → Bool) (fn : String) : ∀ x : List Nat,
    x.length % 3 = 0 → ∀ (tail : List ReadResult) (lc : Nat) (st : Sink),
    lc % 4 = 0 → lc < 76 →
    ∃ (st2 : Sink) (lc2 : Nat),
      ioLoop ok fn (readsOf x ++ tail) lc st = ioLoop ok fn tail lc2 st2 ∧
      lc2 % 4 = 0 ∧ lc2 < 76 ∧ lc2 = (lc + 4 * (x.length / 3)) % 76 ∧
      ((∀ k, ok k = true) → st2.failed = st.failed ∧
        st2.written ++ finish lc2 = st.written ++ wrapSymbols lc (symbolStream x)) := by
  intro x
  induction x using chunk3_induction with
  | h0 =>
    intro _ tail lc st h4 hc
    exact ⟨st, lc, rfl, h4, hc, by simp; omega, fun _ => ⟨rfl, rfl⟩⟩
  | h1 a => intro h; simp at h
  | h2 a b => intro h; simp at h
  | h3 a b c rest ih =>
    intro h tail lc st h4 hc
    have hr : rest.length % 3 = 0 := by
      simp only [List.length_cons] at h; omega
    have hlen : (a :: b :: c :: rest).length / 3 = rest.length / 3 + 1 := by
      simp only [List.length_cons]; omega
    by_cases h76 : lc + 4 = 76
    · obtain ⟨st2, lc2, e, p4, pc, pl, pw⟩ :=
        ih hr tail 0 (Sink.put ok (Sink.put ok st (encodeChunk a b c 3)).1 ['\n']).1
          (by decide) (by decide)
      refine ⟨st2, lc2, ?_, p4, pc, ?_, ?_⟩
      · rw [← e]
        simp [readsOf, ioLoop, h76]
      · rw [pl, hlen]; omega
      · intro hok
        obtain ⟨f, w⟩ := pw hok
        rw [put_ok ok hok, put_ok ok hok] at f w
        refine ⟨f, ?_⟩
        rw [w, symbolStream, encodeChunk_eq a b c 3]
        simp only [List.cons_append, List.nil_append]
        rw [wrapSymbols_four _ _ _ _ _ _ h4, if_pos h76]
        simp
    · obtain ⟨st2, lc2, e, p4, pc, pl, pw⟩ :=
        ih hr tail (lc + 4) (Sink.put ok st (encodeChunk a b c 3)).1 (by omega) (by omega)
      have hge : ¬ lc + 4 ≥ 76 := by omega
      refine ⟨st2, lc2, ?_, p4, pc, ?_, ?_⟩
      · rw [← e]
        simp [readsOf, ioLoop, hge]
      · rw [pl, hlen]; omega
      · intro hok
        obtain ⟨f, w⟩ := pw hok
        rw [put_ok ok hok] at f w
        refine ⟨f, ?_⟩
        rw [w, symbolStream, encodeChunk_eq a b c 3]
        simp only [List.cons_append, List.nil_append]
        rw [wrapSymbols_four _ _ _ _ _ _ h4, if_neg h76]
        simp

theorem symbolsOf_append_finish (w : List Char) (c : Nat) :
    symbolsOf (w ++ finish c) = symbolsOf w := by
  unfold symbolsOf finish
  rw [List.filter_append]
  split <;> simp

/-- C16: when a read of the loop reports an error (fewer than 3 bytes with the
error indicator set), after the full chunks of `x` were read, the run ends
with status 1 and an error message naming the input, whatever `stdout` does;
nothing is written for the failing chunk: what was written is the output of
the chunks of `x` without the trailing newline that ends a complete run. -/
theorem read_error_aborts (ok : Nat → Bool) (fn : String) (x : List Nat) (r : ReadResult)
    (rest : List ReadResult) (h3 : x.length % 3 = 0) (hx : Bytes x)
    (hr : r.bytes.length < 3) (he : r.error = true) :
    (ioLoop ok fn (readsOf x ++ r :: rest) 0
      { written := [], calls := 0, failed := false }).2 = Outcome.exited 1 (some fn) ∧
    ∃ out, encode x = some out ∧
      (ioLoop (fun _ => true) fn (readsOf x ++ r :: rest) 0
        { written := [], calls := 0, failed := false }).1.written ++
          finish ((4 * (x.length / 3)) % 76) = out ∧
      symbolsOf (ioLoop (fun _ => true) fn (readsOf x ++ r :: rest) 0
        { written := [], calls := 0, failed := false }).1.written = symbolStream x := by
  have stop : ∀ (o : Nat → Bool) (lc : Nat) (st : Sink),
      ioLoop o fn (r :: rest) lc st = (st, Outcome.exited 1 (some fn)) := by
    intro o lc st
    rw [ioLoop]
    simp only []
    rw [if_pos ⟨hr, he⟩]
  constructor
  · obtain ⟨st2, lc2, e, _, _, _, _⟩ :=
      ioLoop_full_reads ok fn x h3 (r :: rest) 0
        { written := [], calls := 0, failed := false } (by decide) (by decide)
    rw [e, stop]
  · obtain ⟨st2, lc2, e, _, _, pl, pw⟩ :=
      ioLoop_full_reads (fun _ => true) fn x h3 (r :: rest) 0
        { written := [], calls := 0, failed := false } (by decide) (by decide)
    obtain ⟨_, w⟩ := pw (fun _ => rfl)
    rw [e, stop]
    simp only [List.nil_append, Nat.zero_add] at w pl
    refine ⟨_, encode_eq x, ?_, ?_⟩
    · rw [← pl]; exact w
    · have := congrArg symbolsOf w
      rw [symbolsOf_append_finish, symbolsOf_encode x hx] at this
      exact this

/-- Witness of C16: the chunk "foo", then a failing read that returned one
byte, on a stream named "in". -/
theorem read_error_aborts_witness :
    (ioLoop (fun _ => false) "in"
      (readsOf [0x66, 0x6F, 0x6F] ++ { bytes := [0x66], error := true } :: []) 0
      { written := [], calls := 0, failed := false }).2 = Outcome.exited 1 (some "in") ∧
    ∃ out, encode [0x66, 0x6F, 0x6F] = some out ∧
      (ioLoop (fun _ => true) "in"
        (readsOf [0x66, 0x6F, 0x6F] ++ { bytes := [0x66], error := true } :: []) 0
        { written := [], calls := 0, failed := false }).1.written ++
          finish ((4 * ([0x66, 0x6F, 0x6F].length / 3)) % 76) = out ∧
      symbolsOf (ioLoop (fun _ => true) "in"
        (readsOf [0x66, 0x6F, 0x6F] ++ { bytes := [0x66], error := true } :: []) 0
        { written := [], calls := 0, failed := false }).1.written =
          symbolStream [0x66, 0x6F, 0x6F] :=
  read_error_aborts (fun _ => false) "in" [0x66, 0x6F, 0x6F]
    { bytes := [0x66], error := true } [] (by decide) (by decide) (by decide) rfl

end Base64

namespace Base64

theorem encodeChunk_four (b0 b1 b2 nr : Nat) :
    ∃ s0 s1 s2 s3, encodeChunk b0 b1 b2 nr = [s0, s1, s2, s3] :=
  ⟨_, _, _, _, encodeChunk_eq b0 b1 b2 nr⟩

/-- On a stream that holds the bytes `x`, read without error and written
without failure, the loop with explicit input and output delivers what
`mainLoop` computes and exits with status 0. -/
theorem ioLoop_readsOf (fn : String) : ∀ (x : List Nat) (lc : Nat) (st : Sink),
    lc % 4 = 0 → lc < 76 →
    (ioLoop (fun _ => true) fn (readsOf x) lc st).1.written =
        st.written ++ wrapSymbols lc (symbolStream x) ∧
      (ioLoop (fun _ => true) fn (readsOf x) lc st).2 = Outcome.exited 0 none := by
  intro x
  induction x using chunk3_induction with
  | h0 =>
    intro lc st _ _
    by_cases h : lc = 0 <;> simp [readsOf, ioLoop, ioFinish, symbolStream, wrapSymbols, h,
      Sink.put]
  | h1 a =>
    intro lc st h4 hc
    obtain ⟨s0, s1, s2, s3, e⟩ := encodeChunk_four a 0 0 1
    rw [symbolStream, e, wrapSymbols_four _ _ _ _ _ _ h4]
    by_cases h76 : lc + 4 = 76
    · simp [readsOf, ioLoop, ioFinish, Sink.put, h76, wrapSymbols, e]
    · have hge : ¬ lc + 4 ≥ 76 := by omega
      simp [readsOf, ioLoop, ioFinish, Sink.put, h76, hge, wrapSymbols, e]
  | h2 a b =>
    intro lc st h4 hc
    obtain ⟨s0, s1, s2, s3, e⟩ := encodeChunk_four a b 0 2
    rw [symbolStream, e, wrapSymbols_four _ _ _ _ _ _ h4]
    by_cases h76 : lc + 4 = 76
    · simp [readsOf, ioLoop, ioFinish, Sink.put, h76, wrapSymbols, e]
    · have hge : ¬ lc + 4 ≥ 76 := by omega
      simp [readsOf, ioLoop, ioFinish, Sink.put, h76, hge, wrapSymbols, e]
  | h3 a b c rest ih =>
    intro lc st h4 hc
    obtain ⟨s0, s1, s2, s3, e⟩ := encodeChunk_four a b c 3
    rw [symbolStream, e]
    simp only [List.cons_append, List.nil_append]
    rw [wrapSymbols_four _ _ _ _ _ _ h4]
    by_cases h76 : lc + 4 = 76
    · obtain ⟨i1, i2⟩ := ih 0 (Sink.put (fun _ => true)
        (Sink.put (fun _ => true) st [s0, s1, s2, s3]).1 ['\n']).1 (by decide) (by decide)
      have g : encodeChunk ([a, b, c].getD 0 0) ([a, b, c].getD 1 0) ([a, b, c].getD 2 0) 3 =
          [s0, s1, s2, s3] := e
      simp only [readsOf, ioLoop, h76]
      simp only [List.length_cons, List.length_nil, Nat.reduceAdd, Nat.lt_irrefl, false_and,
        if_false, OfNat.ofNat_ne_zero, ge_iff_le, le_refl, if_true]
      rw [g, i1, i2]
      simp [Sink.put]
    · have hge : ¬ lc + 4 ≥ 76 := by omega
      obtain ⟨i1, i2⟩ := ih (lc + 4) (Sink.put (fun _ => true) st [s0, s1, s2, s3]).1
        (by omega) (by omega)
      have g : encodeChunk ([a, b, c].getD 0 0) ([a, b, c].getD 1 0) ([a, b, c].getD 2 0) 3 =
          [s0, s1, s2, s3] := e
      simp only [readsOf, ioLoop, h76, hge]
      simp only [List.length_cons, List.length_nil, Nat.reduceAdd, Nat.lt_irrefl, false_and,
        if_false, OfNat.ofNat_ne_zero]
      rw [g, i1, i2]
      simp [Sink.put]

end Base64

namespace Base64

theorem final_group_one (a : Nat) (ha : a < 256) :
    encodeChunk a 0 0 1 = [b64aAt (a / 4), b64aAt (a % 4 * 16), '=', '='] := by
  unfold encodeChunk
  rw [packBits_eq a 0 0 ha (by decide) (by decide), b64i_eq _ (by omega)]
  have e0 : (a * 65536 + 0 * 256 + 0) / 262144 = a / 4 := by omega
  have e1 : (a * 65536 + 0 * 256 + 0) / 4096 % 64 = a % 4 * 16 := by omega
  rw [e0, e1]
  rfl

theorem final_group_two (a b : Nat) (ha : a < 256) (hb : b < 256) :
    encodeChunk a b 0 2 =
      [b64aAt (a / 4), b64aAt (a % 4 * 16 + b / 16), b64aAt (b % 16 * 4), '='] := by
  unfold encodeChunk
  rw [packBits_eq a b 0 ha hb (by decide), b64i_eq _ (by omega)]
  have e0 : (a * 65536 + b * 256 + 0) / 262144 = a / 4 := by omega
  have e1 : (a * 65536 + b * 256 + 0) / 4096 % 64 = a % 4 * 16 + b / 16 := by omega
  have e2 : (a * 65536 + b * 256 + 0) / 64 % 64 = b % 16 * 4 := by omega
  rw [e0, e1, e2]
  rfl

theorem final_group : ∀ x, Bytes x →
    (x.length % 3 = 1 → ∃ pre s0 i, symbolStream x = pre ++ [s0, b64aAt i, '=', '='] ∧
      i < 64 ∧ i % 16 = 0) ∧
    (x.length % 3 = 2 → ∃ pre s0 s1 i, symbolStream x = pre ++ [s0, s1, b64aAt i, '='] ∧
      i < 64 ∧ i % 4 = 0) := by
  intro x
  induction x using chunk3_induction with
  | h0 => intro _; exact ⟨fun h => by simp at h, fun h => by simp at h⟩
  | h1 a =>
    intro hx
    have ha : a < 256 := hx a (by simp)
    refine ⟨fun _ => ⟨[], b64aAt (a / 4), a % 4 * 16, ?_, by omega, by omega⟩,
      fun h => by simp at h⟩
    rw [symbolStream, final_group_one a ha]; rfl
  | h2 a b =>
    intro hx
    have ha : a < 256 := hx a (by simp)
    have hb : b < 256 := hx b (by simp)
    refine ⟨fun h => by simp at h, fun _ => ⟨[], b64aAt (a / 4), b64aAt (a % 4 * 16 + b / 16),
      b % 16 * 4, ?_, by omega, by omega⟩⟩
    rw [symbolStream, final_group_two a b ha hb]; rfl
  | h3 a b c rest ih =>
    intro hx
    have hr : Bytes rest := fun y hy => hx y (by simp [hy])
    obtain ⟨i1, i2⟩ := ih hr
    have hl : (a :: b :: c :: rest).length % 3 = rest.length % 3 := by
      simp only [List.length_cons]; omega
    rw [hl, symbolStream]
    constructor
    · intro h
      obtain ⟨pre, s0, i, e, p1, p2⟩ := i1 h
      exact ⟨encodeChunk a b c 3 ++ pre, s0, i, by rw [e, List.append_assoc], p1, p2⟩
    · intro h
      obtain ⟨pre, s0, s1, i, e, p1, p2⟩ := i2 h
      exact ⟨encodeChunk a b c 3 ++ pre, s0, s1, i, by rw [e, List.append_assoc], p1, p2⟩

/-- C18: the bits of the final group that do not come from the input are 0:
when `n % 3 = 1` the symbols end with `s0, b64a[i], '=', '='` with `i` a
multiple of 16, and when `n % 3 = 2` they end with `s0, s1, b64a[i], '='` with
`i` a multiple of 4, whatever the earlier chunks hold. -/
theorem canonical_final_group (x : List Nat) (hx : Bytes x) :
    ∃ out, encode x = some out ∧
      (x.length % 3 = 1 → ∃ pre s0 i, symbolsOf out = pre ++ [s0, b64aAt i, '=', '='] ∧
        i < 64 ∧ i % 16 = 0 ∧ b64a[i]? = some (b64aAt i)) ∧
      (x.length % 3 = 2 → ∃ pre s0 s1 i, symbolsOf out = pre ++ [s0, s1, b64aAt i, '='] ∧
        i < 64 ∧ i % 4 = 0 ∧ b64a[i]? = some (b64aAt i)) := by
  obtain ⟨g1, g2⟩ := final_group x hx
  refine ⟨_, encode_eq x, ?_, ?_⟩
  · intro h
    obtain ⟨pre, s0, i, e, p1, p2⟩ := g1 h
    exact ⟨pre, s0, i, by rw [symbolsOf_encode x hx, e], p1, p2, b64aAt_eq i p1⟩
  · intro h
    obtain ⟨pre, s0, s1, i, e, p1, p2⟩ := g2 h
    exact ⟨pre, s0, s1, i, by rw [symbolsOf_encode x hx, e], p1, p2, b64aAt_eq i p1⟩

/-- Witness of C18 at the four bytes "foof". -/
theorem canonical_final_group_witness :
    ∃ out, encode [0x66, 0x6F, 0x6F, 0x66] = some out ∧
      ([0x66, 0x6F, 0x6F, 0x66].length % 3 = 1 →
        ∃ pre s0 i, symbolsOf out = pre ++ [s0, b64aAt i, '=', '='] ∧
          i < 64 ∧ i % 16 = 0 ∧ b64a[i]? = some (b64aAt i)) ∧
      ([0x66, 0x6F, 0x6F, 0x66].length % 3 = 2 →
        ∃ pre s0 s1 i, symbolsOf out = pre ++ [s0, s1, b64aAt i, '='] ∧
          i < 64 ∧ i % 4 = 0 ∧ b64a[i]? = some (b64aAt i)) :=
  canonical_final_group [0x66, 0x6F, 0x6F, 0x66] (by decide)

theorem loopHeads_inv : ∀ (x : List Nat) (lc : Nat), lc % 4 = 0 → lc < 76 →
    (∀ h ∈ loopHeads x lc, h % 4 = 0 ∧ h ≤ 72) ∧
      (loopHeads x lc).length = x.length / 3 + 1 := by
  intro x
  induction x using chunk3_induction with
  | h0 => intro lc h4 hc; exact ⟨fun h hh => by simp [loopHeads] at hh; omega, rfl⟩
  | h1 a =>
    intro lc h4 hc
    exact ⟨fun h hh => by simp [loopHeads] at hh; omega, by simp [loopHeads]⟩
  | h2 a b =>
    intro lc h4 hc
    exact ⟨fun h hh => by simp [loopHeads] at hh; omega, by simp [loopHeads]⟩
  | h3 a b c rest ih =>
    intro lc h4 hc
    rw [loopHeads, lineWrap_eq lc h4 hc]
    have hlen : (a :: b :: c :: rest).length / 3 = rest.length / 3 + 1 := by
      simp only [List.length_cons]; omega
    by_cases h76 : lc + 4 = 76
    · obtain ⟨i1, i2⟩ := ih 0 (by decide) (by decide)
      simp only [h76, if_true]
      constructor
      · intro h hh
        rcases List.mem_cons.1 hh with hh | hh
        · omega
        · exact i1 h hh
      · rw [List.length_cons, i2, hlen]
    · obtain ⟨i1, i2⟩ := ih (lc + 4) (by omega) (by omega)
      simp only [h76, if_false]
      constructor
      · intro h hh
        rcases List.mem_cons.1 hh with hh | hh
        · omega
        · exact i1 h hh
      · rw [List.length_cons, i2, hlen]

theorem ioLoop_not_aborted (fn : String) (ok : Nat → Bool) : ∀ (reads : List ReadResult)
    (lc : Nat) (st : Sink), lc % 4 = 0 → lc < 76 →
    (ioLoop ok fn reads lc st).2 ≠ Outcome.aborted := by
  intro reads
  induction reads with
  | nil => intro lc st _ _; simp [ioLoop, ioFinish]
  | cons r rest ih =>
    intro lc st h4 hc
    simp only [ioLoop]
    split
    · simp
    · split
      · simp [ioFinish]
      · split
        · split
          · split
            · simp [ioFinish]
            · exact ih _ _ (by decide) (by decide)
          · omega
        · split
          · simp [ioFinish]
          · exact ih _ _ (by omega) (by omega)

/-- C19: the assertion `line_char == 76` never fails. For every input the run
of the loop ends without assertion failure; at the head of each of its
`n / 3 + 1` iterations `line_char` is a multiple of 4 and at most 72, so that
`line_char + 4 >= 76` only when `line_char + 4 = 76`; this also holds with
failing reads and writes. -/
theorem assert_never_fails (x : List Nat) :
    encode x ≠ none ∧
    (loopHeads x 0).length = x.length / 3 + 1 ∧
    (∀ lc ∈ loopHeads x 0, lc % 4 = 0 ∧ lc ≤ 72 ∧ lineWrap lc ≠ none ∧
      (lc + 4 ≥ 76 → lc + 4 = 76)) ∧
    (∀ fn ok reads,
      (ioLoop ok fn reads 0 { written := [], calls := 0, failed := false }).2 ≠
        Outcome.aborted) ∧
    (∀ argv stdin fopen ok, (main argv stdin fopen ok).2 ≠ Outcome.aborted) := by
  obtain ⟨i1, i2⟩ := loopHeads_inv x 0 (by decide) (by decide)
  refine ⟨by rw [encode_eq x]; simp, i2, ?_, ?_, ?_⟩
  · intro lc h
    obtain ⟨p4, p72⟩ := i1 lc h
    refine ⟨p4, p72, ?_, by omega⟩
    rw [lineWrap_eq lc p4 (by omega)]
    simp
  · intro fn ok reads
    exact ioLoop_not_aborted fn ok reads 0 _ (by decide) (by decide)
  · intro argv stdin fopen ok
    unfold main
    simp only []
    split
    · simp
    · split
      · split
        · simp
        · exact ioLoop_not_aborted _ ok _ 0 _ (by decide) (by decide)
      · exact ioLoop_not_aborted _ ok _ 0 _ (by decide) (by decide)

theorem symbolStream_append : ∀ x y : List Nat, x.length % 3 = 0 →
    symbolStream (x ++ y) = symbolStream x ++ symbolStream y := by
  intro x
  induction x using chunk3_induction with
  | h0 => intro y _; rfl
  | h1 a => intro y h; simp at h
  | h2 a b => intro y h; simp at h
  | h3 a b c rest ih =>
    intro y h
    have hr : rest.length % 3 = 0 := by
      simp only [List.length_cons] at h; omega
    have e := ih y hr
    simp only [List.cons_append, symbolStream, List.append_assoc]
    exact congrArg _ e

theorem wrapSymbols_append : ∀ (sx : List Char) (c : Nat) (sy : List Char), c < 76 →
    (c + sx.length) % 76 = 0 →
    wrapSymbols c (sx ++ sy) = wrapSymbols c sx ++ wrapSymbols 0 sy := by
  intro sx
  induction sx with
  | nil =>
    intro c sy hc h
    have : c = 0 := by simp only [List.length_nil] at h; omega
    subst this
    rfl
  | cons s rest ih =>
    intro c sy hc h
    rw [List.length_cons] at h
    by_cases h1 : c + 1 = 76
    · rw [List.cons_append, wrapSymbols, if_pos h1, wrapSymbols, if_pos h1,
        ih 0 sy (by decide) (by omega)]
      rfl
    · rw [List.cons_append, wrapSymbols, if_neg h1, wrapSymbols, if_neg h1,
        ih (c + 1) sy (by omega) (by omega)]
      rfl

/-- C20: chunked streaming is compositional. For byte sequences `x`, `y` with
the length of `x` a multiple of 3, the symbols written for `x ++ y` are those
of `x` followed by those of `y`; when the length of `x` is a multiple of 57
the whole outputs, newlines included, satisfy the same equation. -/
theorem encode_append (x y : List Nat) (hx : Bytes x) (hy : Bytes y) :
    ∃ ox oy oxy, encode x = some ox ∧ encode y = some oy ∧ encode (x ++ y) = some oxy ∧
      (x.length % 3 = 0 → symbolsOf oxy = symbolsOf ox ++ symbolsOf oy) ∧
      (x.length % 57 = 0 → oxy = ox ++ oy) := by
  have hxy : Bytes (x ++ y) := by
    intro b hb
    rcases List.mem_append.1 hb with hb | hb
    · exact hx b hb
    · exact hy b hb
  refine ⟨_, _, _, encode_eq x, encode_eq y, encode_eq (x ++ y), ?_, ?_⟩
  · intro h
    rw [symbolsOf_encode x hx, symbolsOf_encode y hy, symbolsOf_encode _ hxy,
      symbolStream_append x y h]
  · intro h
    have h3 : x.length % 3 = 0 := by omega
    have hl := symbolStream_length x
    rw [symbolStream_append x y h3,
      wrapSymbols_append _ 0 _ (by decide) (by rw [hl]; omega)]

/-- Witness of C20 at "foo" followed by "fo". -/
theorem encode_append_witness :
    ∃ ox oy oxy, encode [0x66, 0x6F, 0x6F] = some ox ∧ encode [0x66, 0x6F] = some oy ∧
      encode ([0x66, 0x6F, 0x6F] ++ [0x66, 0x6F]) = some oxy ∧
      ([0x66, 0x6F, 0x6F].length % 3 = 0 → symbolsOf oxy = symbolsOf ox ++ symbolsOf oy) ∧
      ([0x66, 0x6F, 0x6F].length % 57 = 0 → oxy = ox ++ oy) :=
  encode_append [0x66, 0x6F, 0x6F] [0x66, 0x6F] (by decide) (by decide)

end Base64
